import Mathlib

/-!
A shallow embedding of the WebLBM D2Q9 lattice-Boltzmann solver
(WGSL compute shaders `common.wgsl`, `step.wgsl`, `init.wgsl`, and the
TypeScript host `GPUController.ts`), together with theorems about its
Esoteric-Pull addressing scheme, its numerics and its mask editing.

Machine integers (`u32`) are modelled as `ℕ` (no arithmetic in the shaders
comes near 2^32 for realistic lattice sizes; all index arithmetic is
overflow-free for `9 * Nx * Ny < 2^32`, which the theorems do not depend on).
`f32` arithmetic is modelled exactly over `ℚ`; the half-precision storage
quantization is modelled separately (round to nearest, ties to even, over the
fp16 value grid) for the numerical round-trip claim.
-/

namespace WebLBM

/-- Mask bit: solid cell (`CELL_SOLID = 1 << 0` in `common.wgsl`). -/
def CELL_SOLID : ℕ := 1

/-- Mask bit: equilibrium-boundary cell (`CELL_EQ = 1 << 1` in `common.wgsl`). -/
def CELL_EQ : ℕ := 2

/-- Mask value of a fluid cell (`CELL_FLUID = 0`). -/
def CELL_FLUID : ℕ := 0

/-- `is_solid` from `common.wgsl`: `(m & CELL_SOLID) != 0`. -/
def is_solid (m : ℕ) : Bool := (m &&& CELL_SOLID) != 0

/-- `is_eq` from `common.wgsl`: `(m & CELL_EQ) != 0`. -/
def is_eq (m : ℕ) : Bool := (m &&& CELL_EQ) != 0

/-- `is_fluid` from `common.wgsl`: `m == 0`. -/
def is_fluid (m : ℕ) : Bool := m == 0

/-- WGSL `select(f, t, cond)`: returns `t` when `cond` holds, else `f`. -/
def wgslSelect {α : Type} (f t : α) (cond : Bool) : α := if cond then t else f

/-- The x-components of the D2Q9 velocity set `EX` from `common.wgsl`
(order: C, E, W, N, S, NE, SW, SE, NW). -/
def EX : Fin 9 → ℤ
  | 0 => 0 | 1 => 1 | 2 => -1 | 3 => 0 | 4 => 0 | 5 => 1 | 6 => -1 | 7 => 1 | 8 => -1

/-- The y-components of the D2Q9 velocity set `EY` from `common.wgsl`. -/
def EY : Fin 9 → ℤ
  | 0 => 0 | 1 => 0 | 2 => 0 | 3 => 1 | 4 => -1 | 5 => 1 | 6 => -1 | 7 => -1 | 8 => 1

/-- The opposite-direction map `OPP` from `common.wgsl`. -/
def OPP : Fin 9 → Fin 9
  | 0 => 0 | 1 => 2 | 2 => 1 | 3 => 4 | 4 => 3 | 5 => 6 | 6 => 5 | 7 => 8 | 8 => 7

/-- SoA addressing from `common.wgsl`: `addr(dir, cell, C) = dir*C + cell`. -/
def addr (dir cell C : ℕ) : ℕ := dir * C + cell

/-- `coordinates` from `common.wgsl`: linear cell index to `(x, y)`. -/
def coordinates (cell Nx : ℕ) : ℕ × ℕ := (cell % Nx, cell / Nx)

/-- The non-periodic `in_bounds` check from `common.wgsl`. -/
def in_bounds (ix iy : ℤ) (Nx Ny : ℕ) : Bool :=
  decide (0 ≤ ix) && decide (0 ≤ iy) && decide (ix < (Nx : ℤ)) && decide (iy < (Ny : ℤ))

/-- `calculate_indices` from `common.wgsl`: returns `(x0, xp, xm, y0, yp, ym)`,
the cell's own x, the wrapped x-neighbors, and the (pre-multiplied by `Nx`)
own/wrapped y rows. -/
def calculate_indices (Nx Ny cell : ℕ) : ℕ × ℕ × ℕ × ℕ × ℕ × ℕ :=
  let xy := coordinates cell Nx
  (xy.1, (xy.1 + 1) % Nx, (xy.1 + Nx - 1) % Nx,
   xy.2 * Nx, ((xy.2 + 1) % Ny) * Nx, ((xy.2 + Ny - 1) % Ny) * Nx)

/-- `get_neighbors` from `common.wgsl`: the eight neighbor cell indices
(entry 0 is never used by the kernel; WGSL zero-initializes `var j`, so it
is 0). -/
def get_neighbors (Nx Ny cell : ℕ) : Fin 9 → ℕ := fun k =>
  let idx := calculate_indices Nx Ny cell
  let x0 := idx.1
  let xp := idx.2.1
  let xm := idx.2.2.1
  let y0 := idx.2.2.2.1
  let yp := idx.2.2.2.2.1
  let ym := idx.2.2.2.2.2
  match k with
  | 0 => 0
  | 1 => xp + y0
  | 2 => xm + y0
  | 3 => x0 + yp
  | 4 => x0 + ym
  | 5 => xp + yp
  | 6 => xm + ym
  | 7 => xp + ym
  | 8 => xm + yp

/-- The f-buffer address read by `load_f_ep_implicit` in `step.wgsl` for
population index `k` of a given cell at a given parity:
`fi[0]` reads `addr(0, cell, C)`; for each opposite pair base `i ∈ {1,3,5,7}`,
`fi[i]` reads `addr(select(i, i+1, parity==1), cell, C)` and
`fi[i+1]` reads `addr(select(i+1, i, parity==1), j[i], C)` with `C = Nx*Ny`. -/
def load_addr (Nx Ny cell parity : ℕ) (k : Fin 9) : ℕ :=
  let C := Nx * Ny
  let j := get_neighbors Nx Ny cell
  if k.val = 0 then addr 0 cell C
  else if k.val % 2 = 1 then
    addr (wgslSelect k.val (k.val + 1) (parity == 1)) cell C
  else
    addr (wgslSelect k.val (k.val - 1) (parity == 1))
      (j ⟨k.val - 1, lt_of_le_of_lt (Nat.sub_le _ _) k.isLt⟩) C

/-- The f-buffer address written by the store phase of `step` in `step.wgsl`
for population index `k` of a given cell at a given parity:
`fi[0]` is stored to `addr(0, cell, C)`; for each pair base `i ∈ {1,3,5,7}`,
`fi[i]` is stored to `addr(select(i+1, i, parity==1), j[i], C)` and
`fi[i+1]` is stored to `addr(select(i, i+1, parity==1), cell, C)`. -/
def store_addr (Nx Ny cell parity : ℕ) (k : Fin 9) : ℕ :=
  let C := Nx * Ny
  let j := get_neighbors Nx Ny cell
  if k.val = 0 then addr 0 cell C
  else if k.val % 2 = 1 then
    addr (wgslSelect (k.val + 1) k.val (parity == 1)) (j k) C
  else
    addr (wgslSelect (k.val - 1) k.val (parity == 1)) cell C

/-- The cell toward which population `k` of `cell` streams: the cell itself
for the rest direction, otherwise the direction-`k` neighbor. -/
def stream_target (Nx Ny cell : ℕ) (k : Fin 9) : ℕ :=
  if k.val = 0 then cell else get_neighbors Nx Ny cell k

/-- The cell index part of a load address: the cell itself for the rest
direction and the lower member of each pair, the pair's neighbor for the
upper member. -/
def load_idx (Nx Ny cell : ℕ) (k : Fin 9) : ℕ :=
  if k.val % 2 = 0 ∧ k.val ≠ 0 then get_neighbors Nx Ny cell (OPP k) else cell

/-- The cell index part of a store address. -/
def store_idx (Nx Ny cell : ℕ) (k : Fin 9) : ℕ :=
  if k.val % 2 = 1 then get_neighbors Nx Ny cell k else cell

/-! ### Numerics of the solver, modelled exactly over `ℚ`

The shaders do all arithmetic in `f32`; the embedding models it exactly over
`ℚ`.  The half-precision storage quantization applied by `store_f16s` /
`pack_f16s` is abstracted to the exact scale factor here; the rounding
itself is modelled in the fp16 section below for the round-trip claim. -/

/-- `W0 = 4/9` from `common.wgsl` (center weight). -/
def W0 : ℚ := 4 / 9

/-- `WS = 1/9` from `common.wgsl` (axis weight). -/
def WS : ℚ := 1 / 9

/-- `WE = 1/36` from `common.wgsl` (diagonal weight). -/
def WE : ℚ := 1 / 36

/-- `FP16S_SCALE = 2^15` from `common.wgsl`. -/
def FP16S_SCALE : ℚ := 32768

/-- `FP16S_INV_SCALE = 2^-15` from `common.wgsl`. -/
def FP16S_INV_SCALE : ℚ := 1 / 32768

/-- `decode_f16s` from `common.wgsl`: unpack the stored half and downscale.
The widening `f32(p)` is exact, so it is the identity in this model. -/
def decode_f16s (p : ℚ) : ℚ := p * FP16S_INV_SCALE

/-- The value written by `store_f16s` in `common.wgsl` (`*p = f16(v *
FP16S_SCALE)`): upscale, then pack.  The f16 quantization is abstracted to
the identity here (the exact-arithmetic model); `f16_rne` below models it. -/
def store_f16s (v : ℚ) : ℚ := v * FP16S_SCALE

/-- `pack_f16s` used by `init.wgsl`: same upscale-and-pack as `store_f16s`,
returning the packed value. -/
def pack_f16s (v : ℚ) : ℚ := v * FP16S_SCALE

/-- `feq_d2q9_shifted` from `common.wgsl`: the nine shifted D2Q9 equilibrium
populations of density `rho_in` and velocity `u_in`, composed exactly as in
the source (separate `rho - 1` term, pre-combined diagonal velocities,
`(rho-1)` weight added last). -/
def feq_d2q9_shifted (rho_in : ℚ) (u_in : ℚ × ℚ) : Fin 9 → ℚ := fun k =>
  let ux0 := u_in.1
  let uy0 := u_in.2
  let rho := rho_in
  let rhom1 := rho - 1
  let c3 : ℚ := -3 * (ux0 * ux0 + uy0 * uy0)
  let ux := ux0 * 3
  let uy := uy0 * 3
  let rhos := WS * rho
  let rhoe := WE * rho
  let rhom1s := WS * rhom1
  let rhom1e := WE * rhom1
  let u_plus := ux + uy
  let u_minus := ux - uy
  match k with
  | 0 => W0 * (rho * ((1 / 2) * c3) + rhom1)
  | 1 => rhos * ((1 / 2) * (ux * ux + c3) + ux) + rhom1s
  | 2 => rhos * ((1 / 2) * (ux * ux + c3) - ux) + rhom1s
  | 3 => rhos * ((1 / 2) * (uy * uy + c3) + uy) + rhom1s
  | 4 => rhos * ((1 / 2) * (uy * uy + c3) - uy) + rhom1s
  | 5 => rhoe * ((1 / 2) * (u_plus * u_plus + c3) + u_plus) + rhom1e
  | 6 => rhoe * ((1 / 2) * (u_plus * u_plus + c3) - u_plus) + rhom1e
  | 7 => rhoe * ((1 / 2) * (u_minus * u_minus + c3) + u_minus) + rhom1e
  | 8 => rhoe * ((1 / 2) * (u_minus * u_minus + c3) - u_minus) + rhom1e

/-- `calculate_rho_u` from `step.wgsl`: density as the running sum of the
nine populations with the `+1.0` shift added last, and velocity as the
alternating-sign sums divided by the density. -/
def calculate_rho_u (fi : Fin 9 → ℚ) : ℚ × ℚ × ℚ :=
  let rho := fi 0 + fi 1 + fi 2 + fi 3 + fi 4 + fi 5 + fi 6 + fi 7 + fi 8 + 1
  let ux := fi 1 - fi 2 + fi 5 - fi 6 + fi 7 - fi 8
  let uy := fi 3 - fi 4 + fi 5 - fi 6 + fi 8 - fi 7
  (rho, ux / rho, uy / rho)

/-- The SRT-BGK relaxation of one population in `step.wgsl`:
`fma(omega, feq[i], fma(1-omega, fi[i], Fin[i]))`. -/
def srt_collide (omega feqk fik Fink : ℚ) : ℚ :=
  omega * feqk + ((1 - omega) * fik + Fink)

/-! ### The step kernel as a state transformer -/

/-- The GPU-visible mutable state of the solver: the f-buffer and the two
macroscopic buffers (`global_u` holds `ux` on `[0, C)` and `uy` on
`[C, 2C)`).  Buffers hold the raw stored values; `decode_f16s` /
`store_f16s` convert at each access, as in the shaders. -/
structure LBMState where
  f : ℕ → ℚ
  global_u : ℕ → ℚ
  global_rho : ℕ → ℚ

/-- `load_f_ep_implicit` from `step.wgsl`: decode the nine populations from
the parity-controlled self/neighbor slots. -/
def load_f_ep_implicit (Nx Ny : ℕ) (f : ℕ → ℚ) (cell parity : ℕ) : Fin 9 → ℚ :=
  fun k => decode_f16s (f (load_addr Nx Ny cell parity k))

/-- One invocation of the `step` kernel from `step.wgsl` for the workgroup
item `(gx, gy)`, as a state transformer.  Follows the source line by line:
bounds guard, solid early-out, Esoteric-Pull load, outlet copy for the
rightmost equilibrium column, moments (persisted for equilibrium cells,
recomputed and written back otherwise), equilibrium, SRT collision with the
equilibrium override for boundary cells, and the parity-mirrored store. -/
def step_cell (Nx Ny : ℕ) (omega : ℚ) (mask : ℕ → ℕ) (parity gx gy : ℕ)
    (s : LBMState) : LBMState :=
  if gx ≥ Nx ∨ gy ≥ Ny then s else
  let cell := gx + gy * Nx
  let C := Nx * Ny
  let m := mask cell
  if is_solid m then s else
  let fi := load_f_ep_implicit Nx Ny s.f cell parity
  let s1 :=
    if gx = Nx - 1 ∧ is_eq m then
      let inner := Nx - 2 + gy * Nx
      let rho1 := Function.update s.global_rho cell (s.global_rho inner)
      let u1 := Function.update s.global_u cell (s.global_u inner)
      let u2 := Function.update u1 (C + cell) (u1 (C + inner))
      { s with global_rho := rho1, global_u := u2 }
    else s
  let rhon := if is_eq m then decode_f16s (s1.global_rho cell) else (calculate_rho_u fi).1
  let uxn := if is_eq m then decode_f16s (s1.global_u cell) else (calculate_rho_u fi).2.1
  let uyn :=
    if is_eq m then decode_f16s (s1.global_u (C + cell)) else (calculate_rho_u fi).2.2
  let s2 :=
    if is_eq m then s1
    else
      { s1 with
        global_rho := Function.update s1.global_rho cell (store_f16s rhon),
        global_u := Function.update (Function.update s1.global_u cell (store_f16s uxn))
          (C + cell) (store_f16s uyn) }
  let feq := feq_d2q9_shifted rhon (uxn, uyn)
  let fi2 : Fin 9 → ℚ :=
    fun i => wgslSelect (srt_collide omega (feq i) (fi i) 0) (feq i) (is_eq m)
  { s2 with
    f := (List.finRange 9).foldl
      (fun g k => Function.update g (store_addr Nx Ny cell parity k)
        (store_f16s (fi2 k))) s2.f }

/-- The buffer elements one invocation of the `step` kernel reads and
writes, per buffer, read directly off the source's access pattern. -/
structure CellFootprint where
  fReads : List ℕ
  fWrites : List ℕ
  uReads : List ℕ
  uWrites : List ℕ
  rhoReads : List ℕ
  rhoWrites : List ℕ

/-- The empty footprint: no element of `f`, `global_u` or `global_rho` is
read or written. -/
def emptyFootprint : CellFootprint := ⟨[], [], [], [], [], []⟩

/-- The footprint of one `step` invocation at `(gx, gy)`: out-of-grid and
solid invocations touch nothing; all others load nine slots and store nine
slots of `f`, equilibrium cells read (and outlet cells first overwrite) the
persisted macroscopic values, and all other cells write the recomputed
moments back. -/
def step_cell_footprint (Nx Ny : ℕ) (mask : ℕ → ℕ) (parity gx gy : ℕ) : CellFootprint :=
  if gx ≥ Nx ∨ gy ≥ Ny then emptyFootprint else
  let cell := gx + gy * Nx
  let C := Nx * Ny
  let m := mask cell
  if is_solid m then emptyFootprint else
  let inner := Nx - 2 + gy * Nx
  let outlet := gx = Nx - 1 ∧ is_eq m
  { fReads := (List.finRange 9).map (load_addr Nx Ny cell parity)
    fWrites := (List.finRange 9).map (store_addr Nx Ny cell parity)
    uReads :=
      (if outlet then [inner, C + inner] else []) ++
        (if is_eq m then [cell, C + cell] else [])
    uWrites :=
      (if outlet then [cell, C + cell] else []) ++
        (if is_eq m then [] else [cell, C + cell])
    rhoReads :=
      (if outlet then [inner] else []) ++ (if is_eq m then [cell] else [])
    rhoWrites :=
      (if outlet then [cell] else []) ++ (if is_eq m then [] else [cell]) }

/-- All f-buffer slots written by one whole step pass (one invocation per
grid cell). -/
def step_pass_f_writes (Nx Ny : ℕ) (mask : ℕ → ℕ) (parity : ℕ) : List ℕ :=
  (List.range (Nx * Ny)).flatMap
    (fun c => (step_cell_footprint Nx Ny mask parity (c % Nx) (c / Nx)).fWrites)

/-! ### The init kernel as a state transformer -/

/-- The write-back pattern shared by every branch of `initialize` in
`init.wgsl`: pack the macroscopic values into `global_rho` / `global_u` and
the nine populations into the cell's f-slots. -/
def writeCellInit (C cell : ℕ) (rv uxv uyv : ℚ) (fv : Fin 9 → ℚ)
    (s : LBMState) : LBMState :=
  { f := (List.finRange 9).foldl
      (fun g (d : Fin 9) => Function.update g (addr d.val cell C) (pack_f16s (fv d))) s.f
    global_u := Function.update (Function.update s.global_u cell (pack_f16s uxv))
      (C + cell) (pack_f16s uyv)
    global_rho := Function.update s.global_rho cell (pack_f16s rv) }

/-- One invocation of the `initialize` kernel from `init.wgsl`: the
equilibrium-boundary outlet (rightmost column) gets density 1 and zero
velocity, other equilibrium cells density 1 and the inlet velocity, and all
remaining cells (the solid branch is commented out in the source, so solid
and fluid alike) density 1 and zero velocity; every branch seeds the cell's
nine populations with the equilibrium of those values. -/
def init_cell (Nx Ny : ℕ) (inletUx inletUy : ℚ) (mask : ℕ → ℕ) (gx gy : ℕ)
    (s : LBMState) : LBMState :=
  if gx ≥ Nx ∨ gy ≥ Ny then s else
  let C := Nx * Ny
  let cell := gx + gy * Nx
  let m := mask cell
  if is_eq m then
    if gx = Nx - 1 then
      writeCellInit C cell 1 0 0 (feq_d2q9_shifted 1 (0, 0)) s
    else
      writeCellInit C cell 1 inletUx inletUy
        (feq_d2q9_shifted 1 (inletUx, inletUy)) s
  else
    writeCellInit C cell 1 0 0 (feq_d2q9_shifted 1 (0, 0)) s

/-- One whole init pass: one `initialize` invocation per grid cell. -/
def init_pass (Nx Ny : ℕ) (inletUx inletUy : ℚ) (mask : ℕ → ℕ)
    (s : LBMState) : LBMState :=
  (List.range (Nx * Ny)).foldl
    (fun st c => init_cell Nx Ny inletUx inletUy mask (c % Nx) (c / Nx) st) s

/-- The x-velocity `initialize` persists for a cell, by branch (a pure
function of mask value, column and parameters). -/
def init_ux (Nx : ℕ) (inletUx : ℚ) (m gx : ℕ) : ℚ :=
  if is_eq m then (if gx = Nx - 1 then 0 else inletUx) else 0

/-- The y-velocity `initialize` persists for a cell, by branch. -/
def init_uy (Nx : ℕ) (inletUy : ℚ) (m gx : ℕ) : ℚ :=
  if is_eq m then (if gx = Nx - 1 then 0 else inletUy) else 0

/-- The equilibrium populations `initialize` seeds for a cell, by branch. -/
def init_fv (Nx : ℕ) (inletUx inletUy : ℚ) (m : ℕ) (gx : ℕ) : Fin 9 → ℚ :=
  if is_eq m then
    (if gx = Nx - 1 then feq_d2q9_shifted 1 (0, 0)
     else feq_d2q9_shifted 1 (inletUx, inletUy))
  else feq_d2q9_shifted 1 (0, 0)

/-! ### Half-precision storage, with rounding

`store_f16s` packs `v * 2^15` into an IEEE-754 binary16 value; WGSL
specifies round-to-nearest, ties-to-even.  The fp16 value grid is modelled
exactly over `ℚ`: spacing `2^-24` in the subnormal range, `2^(e-10)` in the
binade `[2^e, 2^(e+1))` (no overflow handling is needed for the claim's
range, which stays below the maximum finite value 65504). -/

/-- Round to the nearest integer, ties to even. -/
def rne (q : ℚ) : ℤ :=
  if q - ⌊q⌋ < 1 / 2 then ⌊q⌋
  else if q - ⌊q⌋ > 1 / 2 then ⌊q⌋ + 1
  else if Even ⌊q⌋ then ⌊q⌋ else ⌊q⌋ + 1

/-- The spacing of the binary16 value grid at `x`. -/
def ulp_f16 (x : ℚ) : ℚ :=
  if |x| < (2 : ℚ) ^ (-14 : ℤ) then (2 : ℚ) ^ (-24 : ℤ)
  else (2 : ℚ) ^ (Int.log 2 |x| - 10)

/-- `f16(x)` for finite non-overflowing `x`: round `x` to the nearest
binary16-representable value, ties to even. -/
def f16_rne (x : ℚ) : ℚ := (rne (x / ulp_f16 x)) * ulp_f16 x

/-- The value `store_f16s` / `pack_f16s` actually stores, with the f16
rounding modelled: `f16(v * FP16S_SCALE)`. -/
def encode_f16s (v : ℚ) : ℚ := f16_rne (v * FP16S_SCALE)

/-! ### Host-side mask editing (`GPUController.ts`, `applyMaskRows`)

Row/column indices are JS numbers; the relevant values are integers, so they
are modelled as `ℤ`.  The host mirror `maskCPU` is a `Uint32Array(C)`:
writes at indices outside `[0, C)` are dropped (typed-array semantics), and
in-range writes use the raw linear index `y*Nx + x`. -/

/-- One step of the per-row merge of `applyMaskRows`: a JS `Map` keyed by
`y` in insertion order; the first interval of a row is normalized with
`min`/`max`, later intervals are merged with `min` on `x0` and `max` on
`x1`. -/
def mergeStep (acc : List (ℤ × ℤ × ℤ)) (r : ℤ × ℤ × ℤ) : List (ℤ × ℤ × ℤ) :=
  match acc.find? (fun e => e.1 == r.1) with
  | none => acc ++ [(r.1, min r.2.1 r.2.2, max r.2.1 r.2.2)]
  | some _ =>
    acc.map (fun e =>
      if e.1 = r.1 then (e.1, min e.2.1 r.2.1, max e.2.2 r.2.2) else e)

/-- The per-row merge loop of `applyMaskRows` (see `mergeStep`). -/
def mergeRows (rows : List (ℤ × ℤ × ℤ)) : List (ℤ × ℤ × ℤ) :=
  rows.foldl mergeStep []

/-- The mirror-update loop body of `applyMaskRows`:
`for (let x = x0; x <= x1; x++) maskCPU[y*Nx + x] = value` with typed-array
semantics (out-of-range assignments dropped). -/
def writeRowSpan (Nx C : ℕ) (value : ℕ) (y x0 x1 : ℤ) (cpu : ℕ → ℕ) : ℕ → ℕ :=
  (List.range (x1 - x0 + 1).toNat).foldl
    (fun g (i : ℕ) =>
      if 0 ≤ y * (Nx : ℤ) + (x0 + (i : ℤ)) ∧
          y * (Nx : ℤ) + (x0 + (i : ℤ)) < (C : ℤ) then
        Function.update g (y * (Nx : ℤ) + (x0 + (i : ℤ))).toNat value
      else g)
    cpu

/-- The `writeBuffer` call of `applyMaskRows`: copy the freshly updated CPU
span `[y*Nx + x0, y*Nx + x0 + (x1-x0+1))` into the device mask buffer.
`queue.writeBuffer(mask, start*4, maskCPU.buffer, start*4, count*4)` throws
synchronously when the arguments are invalid — a TypeError at the Web IDL
`[EnforceRange] GPUSize64` conversion for a negative offset or size, an
OperationError when `dataOffset + size` overruns the source `ArrayBuffer`
(whose length is `C` elements) — so the result is `none` (exception thrown,
device buffer untouched) exactly when the element range `[start, start +
count)` does not fit inside `[0, C]`, and `some` of the updated device
buffer otherwise. -/
def copySpan (Nx C : ℕ) (y x0 x1 : ℤ) (cpu dev : ℕ → ℕ) : Option (ℕ → ℕ) :=
  let start := y * (Nx : ℤ) + x0
  let count := x1 - x0 + 1
  if 0 ≤ start ∧ 0 ≤ count ∧ start + count ≤ (C : ℤ) then
    some (fun a => if start ≤ (a : ℤ) ∧ (a : ℤ) < start + count then cpu a else dev a)
  else none

/-- The loop body of `applyMaskRows` for one merged row span: update the
host mirror, then `writeBuffer` the span to the device mask buffer.  If the
`writeBuffer` call throws (`copySpan` returns `none`), the exception
propagates (`Except.error`), carrying the buffers as they stand at that
point: the current span's mirror writes have already happened, the device
buffer has not changed. -/
def applySpanStep (Nx C : ℕ) (value : ℕ) (st : (ℕ → ℕ) × (ℕ → ℕ))
    (e : ℤ × ℤ × ℤ) :
    Except ((ℕ → ℕ) × (ℕ → ℕ)) ((ℕ → ℕ) × (ℕ → ℕ)) :=
  match copySpan Nx C e.1 e.2.1 e.2.2
      (writeRowSpan Nx C value e.1 e.2.1 e.2.2 st.1) st.2 with
  | some dev2 => .ok (writeRowSpan Nx C value e.1 e.2.1 e.2.2 st.1, dev2)
  | none => .error (writeRowSpan Nx C value e.1 e.2.1 e.2.2 st.1, st.2)

/-- `LBM.applyMaskRows` from `GPUController.ts`: merge the submitted
intervals per row, then for each merged row span update the host mirror and
copy the span to the device buffer (see `applySpanStep`).  A thrown
`writeBuffer` exception aborts the remaining rows: once a step returns
`Except.error`, no later span is processed.  The result carries the final
(mirror, device) pair either way: `Except.ok` if the call returned
normally, `Except.error` if it threw. -/
def applyMaskRows (Nx C : ℕ) (rows : List (ℤ × ℤ × ℤ)) (value : ℕ)
    (cpu dev : ℕ → ℕ) :
    Except ((ℕ → ℕ) × (ℕ → ℕ)) ((ℕ → ℕ) × (ℕ → ℕ)) :=
  if rows = [] then .ok (cpu, dev) else
  (mergeRows rows).foldl
    (fun acc e =>
      match acc with
      | .ok st => applySpanStep Nx C value st e
      | .error st => .error st)
    (.ok (cpu, dev))

/-- The (mirror, device) buffers after an `applyMaskRows` call, whether or
not it threw: the JS mutations performed before a thrown exception
persist. -/
def maskEditState :
    Except ((ℕ → ℕ) × (ℕ → ℕ)) ((ℕ → ℕ) × (ℕ → ℕ)) → (ℕ → ℕ) × (ℕ → ℕ)
  | .ok st => st
  | .error st => st

/-- Whether an `applyMaskRows` call threw an exception. -/
def maskEditThrew :
    Except ((ℕ → ℕ) × (ℕ → ℕ)) ((ℕ → ℕ) × (ℕ → ℕ)) → Bool
  | .ok _ => false
  | .error _ => true

/-- Modelled from the spec's words for the error-handling claim (the source
has no such clamping): an out-of-bounds mask edit is "recovered locally by
clamping the indices to the valid range" — each row index is clamped to
`[0, Ny-1]` and each column index to `[0, Nx-1]` before the cells of the
clamped interval are written. -/
def applyMaskRows_clamped_spec (Nx Ny : ℕ) (rows : List (ℤ × ℤ × ℤ))
    (value : ℕ) (cpu : ℕ → ℕ) : ℕ → ℕ :=
  rows.foldl
    (fun g r =>
      let y := max 0 (min ((Ny : ℤ) - 1) r.1)
      let x0 := max 0 (min ((Nx : ℤ) - 1) (min r.2.1 r.2.2))
      let x1 := max 0 (min ((Nx : ℤ) - 1) (max r.2.1 r.2.2))
      (List.range (x1 - x0 + 1).toNat).foldl
        (fun g2 i => Function.update g2 (y * (Nx : ℤ) + x0 + (i : ℤ)).toNat value) g)
    cpu

/-- The 3×3 mask whose center cell (index 4) is solid and all others fluid,
used to exercise the step pass around a solid cell. -/
def mask3 : ℕ → ℕ := fun c => if c = 4 then CELL_SOLID else CELL_FLUID

/-! ### Modular-arithmetic helpers for the periodic neighbor maps -/

lemma mod_up_down (Nx x : ℕ) (h : x < Nx) : ((x + 1) % Nx + (Nx - 1)) % Nx = x := by
  rcases Nat.lt_or_ge (x + 1) Nx with h1 | h1
  · rw [Nat.mod_eq_of_lt h1]
    have hx : x + 1 + (Nx - 1) = x + Nx := by omega
    rw [hx, Nat.add_mod_right, Nat.mod_eq_of_lt h]
  · have hx : x + 1 = Nx := by omega
    rw [hx, Nat.mod_self, Nat.zero_add, Nat.mod_eq_of_lt (by omega)]
    omega

lemma mod_down_up (Nx x : ℕ) (h : x < Nx) : ((x + Nx - 1) % Nx + 1) % Nx = x := by
  rcases Nat.eq_zero_or_pos x with hx | hx
  · subst hx
    have e1 : 0 + Nx - 1 = Nx - 1 := by omega
    rw [e1, Nat.mod_eq_of_lt (show Nx - 1 < Nx by omega)]
    have e2 : Nx - 1 + 1 = Nx := by omega
    rw [e2, Nat.mod_self]
  · have hx2 : x + Nx - 1 = (x - 1) + Nx := by omega
    rw [hx2, Nat.add_mod_right, Nat.mod_eq_of_lt (show x - 1 < Nx by omega)]
    have hx3 : x - 1 + 1 = x := by omega
    rw [hx3, Nat.mod_eq_of_lt h]

lemma comp_mod (Nx a b : ℕ) (ha : a < Nx) : (a + b * Nx) % Nx = a := by
  rw [Nat.add_mul_mod_self_right, Nat.mod_eq_of_lt ha]

lemma comp_div (Nx a b : ℕ) (ha : a < Nx) : (a + b * Nx) / Nx = b := by
  have h0 : 0 < Nx := lt_of_le_of_lt (Nat.zero_le a) ha
  rw [Nat.add_mul_div_right _ _ h0, Nat.div_eq_of_lt ha, Nat.zero_add]

lemma cell_x_lt (Nx cell : ℕ) (h0 : 0 < Nx) : cell % Nx < Nx := Nat.mod_lt _ h0

lemma cell_y_lt (Nx Ny cell : ℕ) (hc : cell < Nx * Ny) :
    cell / Nx < Ny := Nat.div_lt_of_lt_mul hc

lemma cell_decomp (Nx cell : ℕ) : cell % Nx + cell / Nx * Nx = cell := by
  rw [Nat.mul_comm, Nat.mod_add_div]

/-! ### Evaluation of the neighbor map, direction by direction -/

lemma gn1 (Nx Ny cell : ℕ) :
    get_neighbors Nx Ny cell 1 = (cell % Nx + 1) % Nx + cell / Nx * Nx := rfl

lemma gn2 (Nx Ny cell : ℕ) :
    get_neighbors Nx Ny cell 2 = (cell % Nx + Nx - 1) % Nx + cell / Nx * Nx := rfl

lemma gn3 (Nx Ny cell : ℕ) :
    get_neighbors Nx Ny cell 3 = cell % Nx + (cell / Nx + 1) % Ny * Nx := rfl

lemma gn4 (Nx Ny cell : ℕ) :
    get_neighbors Nx Ny cell 4 = cell % Nx + (cell / Nx + Ny - 1) % Ny * Nx := rfl

lemma gn5 (Nx Ny cell : ℕ) :
    get_neighbors Nx Ny cell 5 = (cell % Nx + 1) % Nx + (cell / Nx + 1) % Ny * Nx := rfl

lemma gn6 (Nx Ny cell : ℕ) :
    get_neighbors Nx Ny cell 6 =
      (cell % Nx + Nx - 1) % Nx + (cell / Nx + Ny - 1) % Ny * Nx := rfl

lemma gn7 (Nx Ny cell : ℕ) :
    get_neighbors Nx Ny cell 7 = (cell % Nx + 1) % Nx + (cell / Nx + Ny - 1) % Ny * Nx := rfl

lemma gn8 (Nx Ny cell : ℕ) :
    get_neighbors Nx Ny cell 8 = (cell % Nx + Nx - 1) % Nx + (cell / Nx + 1) % Ny * Nx := rfl

lemma cell_lt_of_coords (Nx Ny a b : ℕ) (ha : a < Nx) (hb : b < Ny) :
    a + b * Nx < Nx * Ny := by
  calc a + b * Nx < Nx + b * Nx := by omega
    _ = (b + 1) * Nx := by ring
    _ ≤ Ny * Nx := Nat.mul_le_mul_right _ (by omega)
    _ = Nx * Ny := Nat.mul_comm _ _

/-- Every neighbor index computed by `get_neighbors` is again a valid cell
index: the wraparound keeps all eight neighbors inside `[0, Nx*Ny)`. -/
lemma neighbor_lt (Nx Ny cell : ℕ) (h1 : 0 < Nx) (h2 : 0 < Ny)
    (hc : cell < Nx * Ny) (k : Fin 9) (hk : k ≠ 0) :
    get_neighbors Nx Ny cell k < Nx * Ny := by
  have hx : cell % Nx < Nx := cell_x_lt Nx cell h1
  have hy : cell / Nx < Ny := cell_y_lt Nx Ny cell hc
  have hxp : (cell % Nx + 1) % Nx < Nx := Nat.mod_lt _ h1
  have hxm : (cell % Nx + Nx - 1) % Nx < Nx := Nat.mod_lt _ h1
  have hyp : (cell / Nx + 1) % Ny < Ny := Nat.mod_lt _ h2
  have hym : (cell / Nx + Ny - 1) % Ny < Ny := Nat.mod_lt _ h2
  fin_cases k
  · exact absurd rfl hk
  · show get_neighbors Nx Ny cell 1 < Nx * Ny
    rw [gn1]; exact cell_lt_of_coords _ _ _ _ hxp hy
  · show get_neighbors Nx Ny cell 2 < Nx * Ny
    rw [gn2]; exact cell_lt_of_coords _ _ _ _ hxm hy
  · show get_neighbors Nx Ny cell 3 < Nx * Ny
    rw [gn3]; exact cell_lt_of_coords _ _ _ _ hx hyp
  · show get_neighbors Nx Ny cell 4 < Nx * Ny
    rw [gn4]; exact cell_lt_of_coords _ _ _ _ hx hym
  · show get_neighbors Nx Ny cell 5 < Nx * Ny
    rw [gn5]; exact cell_lt_of_coords _ _ _ _ hxp hyp
  · show get_neighbors Nx Ny cell 6 < Nx * Ny
    rw [gn6]; exact cell_lt_of_coords _ _ _ _ hxm hym
  · show get_neighbors Nx Ny cell 7 < Nx * Ny
    rw [gn7]; exact cell_lt_of_coords _ _ _ _ hxp hym
  · show get_neighbors Nx Ny cell 8 < Nx * Ny
    rw [gn8]; exact cell_lt_of_coords _ _ _ _ hxm hyp

/-- Walking to the direction-`k` neighbor and back along the opposite
direction returns to the original cell. -/
lemma neighbor_opp (Nx Ny cell : ℕ) (h1 : 0 < Nx) (h2 : 0 < Ny)
    (hc : cell < Nx * Ny) (k : Fin 9) (hk : k ≠ 0) :
    get_neighbors Nx Ny (get_neighbors Nx Ny cell k) (OPP k) = cell := by
  have hx : cell % Nx < Nx := cell_x_lt Nx cell h1
  have hy : cell / Nx < Ny := cell_y_lt Nx Ny cell hc
  have hxp : (cell % Nx + 1) % Nx < Nx := Nat.mod_lt _ h1
  have hxm : (cell % Nx + Nx - 1) % Nx < Nx := Nat.mod_lt _ h1
  fin_cases k
  · exact absurd rfl hk
  · show get_neighbors Nx Ny (get_neighbors Nx Ny cell 1) 2 = cell
    rw [gn1, gn2, comp_mod Nx _ _ hxp, comp_div Nx _ _ hxp,
      show (cell % Nx + 1) % Nx + Nx - 1 = (cell % Nx + 1) % Nx + (Nx - 1) by omega,
      mod_up_down Nx _ hx, cell_decomp]
  · show get_neighbors Nx Ny (get_neighbors Nx Ny cell 2) 1 = cell
    rw [gn2, gn1, comp_mod Nx _ _ hxm, comp_div Nx _ _ hxm,
      mod_down_up Nx _ hx, cell_decomp]
  · show get_neighbors Nx Ny (get_neighbors Nx Ny cell 3) 4 = cell
    rw [gn3, gn4, comp_mod Nx _ _ hx, comp_div Nx _ _ hx,
      show (cell / Nx + 1) % Ny + Ny - 1 = (cell / Nx + 1) % Ny + (Ny - 1) by omega,
      mod_up_down Ny _ hy, cell_decomp]
  · show get_neighbors Nx Ny (get_neighbors Nx Ny cell 4) 3 = cell
    rw [gn4, gn3, comp_mod Nx _ _ hx, comp_div Nx _ _ hx,
      mod_down_up Ny _ hy, cell_decomp]
  · show get_neighbors Nx Ny (get_neighbors Nx Ny cell 5) 6 = cell
    rw [gn5, gn6, comp_mod Nx _ _ hxp, comp_div Nx _ _ hxp,
      show (cell % Nx + 1) % Nx + Nx - 1 = (cell % Nx + 1) % Nx + (Nx - 1) by omega,
      show (cell / Nx + 1) % Ny + Ny - 1 = (cell / Nx + 1) % Ny + (Ny - 1) by omega,
      mod_up_down Nx _ hx, mod_up_down Ny _ hy, cell_decomp]
  · show get_neighbors Nx Ny (get_neighbors Nx Ny cell 6) 5 = cell
    rw [gn6, gn5, comp_mod Nx _ _ hxm, comp_div Nx _ _ hxm,
      mod_down_up Nx _ hx, mod_down_up Ny _ hy, cell_decomp]
  · show get_neighbors Nx Ny (get_neighbors Nx Ny cell 7) 8 = cell
    rw [gn7, gn8, comp_mod Nx _ _ hxp, comp_div Nx _ _ hxp,
      show (cell % Nx + 1) % Nx + Nx - 1 = (cell % Nx + 1) % Nx + (Nx - 1) by omega,
      mod_up_down Nx _ hx, mod_down_up Ny _ hy, cell_decomp]
  · show get_neighbors Nx Ny (get_neighbors Nx Ny cell 8) 7 = cell
    rw [gn8, gn7, comp_mod Nx _ _ hxm, comp_div Nx _ _ hxm,
      show (cell / Nx + 1) % Ny + Ny - 1 = (cell / Nx + 1) % Ny + (Ny - 1) by omega,
      mod_down_up Nx _ hx, mod_up_down Ny _ hy, cell_decomp]

/-! ### Structure of the Esoteric-Pull load and store addresses -/

lemma load_addr_eq (Nx Ny cell parity : ℕ) (k : Fin 9) :
    load_addr Nx Ny cell parity k =
      addr (if parity == 1 then (OPP k).val else k.val)
        (load_idx Nx Ny cell k) (Nx * Ny) := by
  cases hb : (parity == 1) <;>
    fin_cases k <;>
      simp [load_addr, load_idx, wgslSelect, OPP, hb] <;> rfl

lemma store_addr_eq (Nx Ny cell parity : ℕ) (k : Fin 9) :
    store_addr Nx Ny cell parity k =
      addr (if parity == 1 then k.val else (OPP k).val)
        (store_idx Nx Ny cell k) (Nx * Ny) := by
  cases hb : (parity == 1) <;>
    fin_cases k <;>
      simp [store_addr, store_idx, wgslSelect, OPP, hb] <;> rfl

lemma addr_lt (d i C : ℕ) (hd : d < 9) (hi : i < C) : addr d i C < 9 * C := by
  unfold addr
  calc d * C + i < d * C + C := by omega
    _ = (d + 1) * C := by ring
    _ ≤ 9 * C := Nat.mul_le_mul_right _ (by omega)

lemma addr_inj (d d2 i i2 C : ℕ) (hi : i < C) (hi2 : i2 < C)
    (h : addr d i C = addr d2 i2 C) : d = d2 ∧ i = i2 := by
  unfold addr at h
  have hC : 0 < C := lt_of_le_of_lt (Nat.zero_le i) hi
  have hdiv := congrArg (fun a => a / C) h
  have hmod := congrArg (fun a => a % C) h
  simp only at hdiv hmod
  rw [Nat.mul_comm d C, Nat.mul_comm d2 C, Nat.mul_add_div hC, Nat.mul_add_div hC,
    Nat.div_eq_of_lt hi, Nat.div_eq_of_lt hi2] at hdiv
  rw [Nat.mul_comm d C, Nat.mul_comm d2 C, Nat.mul_add_mod, Nat.mul_add_mod,
    Nat.mod_eq_of_lt hi, Nat.mod_eq_of_lt hi2] at hmod
  exact ⟨by omega, hmod⟩

lemma opp_val_inj (k k2 : Fin 9) (h : (OPP k).val = (OPP k2).val) : k = k2 := by
  revert h
  revert k k2
  decide

lemma opp_opp (k : Fin 9) : OPP (OPP k) = k := by
  revert k
  decide

lemma opp_ne_zero (k : Fin 9) (hk : k.val ≠ 0) : OPP k ≠ 0 := by
  revert hk
  revert k
  decide

lemma ne_zero_of_odd (k : Fin 9) (hk : k.val % 2 = 1) : k ≠ 0 := by
  revert hk
  revert k
  decide

lemma load_idx_lt (Nx Ny cell : ℕ) (h1 : 0 < Nx) (h2 : 0 < Ny)
    (hc : cell < Nx * Ny) (k : Fin 9) : load_idx Nx Ny cell k < Nx * Ny := by
  unfold load_idx
  split
  · next h => exact neighbor_lt Nx Ny cell h1 h2 hc _ (opp_ne_zero k h.2)
  · exact hc

lemma store_idx_lt (Nx Ny cell : ℕ) (h1 : 0 < Nx) (h2 : 0 < Ny)
    (hc : cell < Nx * Ny) (k : Fin 9) : store_idx Nx Ny cell k < Nx * Ny := by
  unfold store_idx
  split
  · next h => exact neighbor_lt Nx Ny cell h1 h2 hc _ (ne_zero_of_odd k h)
  · exact hc

lemma load_idx_inj (Nx Ny c c2 : ℕ) (h1 : 0 < Nx) (h2 : 0 < Ny)
    (hc : c < Nx * Ny) (hc2 : c2 < Nx * Ny) (k : Fin 9)
    (h : load_idx Nx Ny c k = load_idx Nx Ny c2 k) : c = c2 := by
  unfold load_idx at h
  split at h
  · next hcond =>
    have hne : OPP k ≠ 0 := opp_ne_zero k hcond.2
    calc c = get_neighbors Nx Ny (get_neighbors Nx Ny c (OPP k)) (OPP (OPP k)) :=
            (neighbor_opp Nx Ny c h1 h2 hc (OPP k) hne).symm
      _ = get_neighbors Nx Ny (get_neighbors Nx Ny c2 (OPP k)) (OPP (OPP k)) := by rw [h]
      _ = c2 := neighbor_opp Nx Ny c2 h1 h2 hc2 (OPP k) hne
  · exact h

lemma store_idx_inj (Nx Ny c c2 : ℕ) (h1 : 0 < Nx) (h2 : 0 < Ny)
    (hc : c < Nx * Ny) (hc2 : c2 < Nx * Ny) (k : Fin 9)
    (h : store_idx Nx Ny c k = store_idx Nx Ny c2 k) : c = c2 := by
  unfold store_idx at h
  split at h
  · next hcond =>
    have hne : k ≠ 0 := ne_zero_of_odd k hcond
    calc c = get_neighbors Nx Ny (get_neighbors Nx Ny c k) (OPP k) :=
            (neighbor_opp Nx Ny c h1 h2 hc k hne).symm
      _ = get_neighbors Nx Ny (get_neighbors Nx Ny c2 k) (OPP k) := by rw [h]
      _ = c2 := neighbor_opp Nx Ny c2 h1 h2 hc2 k hne
  · exact h

lemma load_addr_lt (Nx Ny cell parity : ℕ) (h1 : 0 < Nx) (h2 : 0 < Ny)
    (hc : cell < Nx * Ny) (k : Fin 9) :
    load_addr Nx Ny cell parity k < 9 * (Nx * Ny) := by
  rw [load_addr_eq]
  apply addr_lt
  · split
    · exact (OPP k).isLt
    · exact k.isLt
  · exact load_idx_lt Nx Ny cell h1 h2 hc k

lemma store_addr_lt (Nx Ny cell parity : ℕ) (h1 : 0 < Nx) (h2 : 0 < Ny)
    (hc : cell < Nx * Ny) (k : Fin 9) :
    store_addr Nx Ny cell parity k < 9 * (Nx * Ny) := by
  rw [store_addr_eq]
  apply addr_lt
  · split
    · exact k.isLt
    · exact (OPP k).isLt
  · exact store_idx_lt Nx Ny cell h1 h2 hc k

lemma load_map_injective (Nx Ny parity : ℕ) (h1 : 0 < Nx) (h2 : 0 < Ny) :
    Function.Injective (fun ck : Fin (Nx * Ny) × Fin 9 =>
      (⟨load_addr Nx Ny ck.1.val parity ck.2,
        load_addr_lt Nx Ny ck.1.val parity h1 h2 ck.1.isLt ck.2⟩ : Fin (9 * (Nx * Ny)))) := by
  rintro ⟨c, k⟩ ⟨c2, k2⟩ h
  have hv : load_addr Nx Ny c.val parity k = load_addr Nx Ny c2.val parity k2 :=
    congrArg Fin.val h
  rw [load_addr_eq, load_addr_eq] at hv
  obtain ⟨hdir, hidx⟩ := addr_inj _ _ _ _ _
    (load_idx_lt _ _ _ h1 h2 c.isLt k) (load_idx_lt _ _ _ h1 h2 c2.isLt k2) hv
  have hk : k = k2 := by
    by_cases hb : (parity == 1) = true
    · simp only [hb, if_true] at hdir
      exact opp_val_inj _ _ hdir
    · simp only [Bool.not_eq_true] at hb
      simp only [hb, Bool.false_eq_true, if_false] at hdir
      exact Fin.ext hdir
  subst hk
  have hcc : c.val = c2.val := load_idx_inj _ _ _ _ h1 h2 c.isLt c2.isLt k hidx
  rw [Fin.ext hcc]

lemma store_map_injective (Nx Ny parity : ℕ) (h1 : 0 < Nx) (h2 : 0 < Ny) :
    Function.Injective (fun ck : Fin (Nx * Ny) × Fin 9 =>
      (⟨store_addr Nx Ny ck.1.val parity ck.2,
        store_addr_lt Nx Ny ck.1.val parity h1 h2 ck.1.isLt ck.2⟩ : Fin (9 * (Nx * Ny)))) := by
  rintro ⟨c, k⟩ ⟨c2, k2⟩ h
  have hv : store_addr Nx Ny c.val parity k = store_addr Nx Ny c2.val parity k2 :=
    congrArg Fin.val h
  rw [store_addr_eq, store_addr_eq] at hv
  obtain ⟨hdir, hidx⟩ := addr_inj _ _ _ _ _
    (store_idx_lt _ _ _ h1 h2 c.isLt k) (store_idx_lt _ _ _ h1 h2 c2.isLt k2) hv
  have hk : k = k2 := by
    by_cases hb : (parity == 1) = true
    · simp only [hb, if_true] at hdir
      exact Fin.ext hdir
    · simp only [Bool.not_eq_true] at hb
      simp only [hb, Bool.false_eq_true, if_false] at hdir
      exact opp_val_inj _ _ hdir
  subst hk
  have hcc : c.val = c2.val := store_idx_inj _ _ _ _ h1 h2 c.isLt c2.isLt k hidx
  rw [Fin.ext hcc]

/-- C1: Esoteric-Pull slot ownership.  For any parity, the addressing
function of the step pass — mapping each (cell, direction index) pair to the
f-buffer slot it touches (direction 0 to the cell's own slot 0; within each
opposite pair, one slot at the neighbor and one at the cell, selected by the
parity) — is a bijection onto the slot set `{0, …, 9·C − 1}`, both for the
load phase and for the store phase.  Hence each of the `9·C` f-buffer slots
is read by at most one invocation and written by at most one invocation per
pass. -/
theorem esoteric_pull_slot_bijection (Nx Ny parity : ℕ) (h1 : 0 < Nx) (h2 : 0 < Ny) :
    Function.Bijective (fun ck : Fin (Nx * Ny) × Fin 9 =>
      (⟨load_addr Nx Ny ck.1.val parity ck.2,
        load_addr_lt Nx Ny ck.1.val parity h1 h2 ck.1.isLt ck.2⟩ : Fin (9 * (Nx * Ny)))) ∧
    Function.Bijective (fun ck : Fin (Nx * Ny) × Fin 9 =>
      (⟨store_addr Nx Ny ck.1.val parity ck.2,
        store_addr_lt Nx Ny ck.1.val parity h1 h2 ck.1.isLt ck.2⟩ : Fin (9 * (Nx * Ny)))) := by
  have hcard : Fintype.card (Fin (Nx * Ny) × Fin 9) = Fintype.card (Fin (9 * (Nx * Ny))) := by
    simp [Fintype.card_prod]
    ring
  constructor
  · exact (Fintype.bijective_iff_injective_and_card _).2
      ⟨load_map_injective Nx Ny parity h1 h2, hcard⟩
  · exact (Fintype.bijective_iff_injective_and_card _).2
      ⟨store_map_injective Nx Ny parity h1 h2, hcard⟩

/-- Witness for C1: the slot maps are bijections on a concrete 2×2 lattice
at parity 0. -/
theorem esoteric_pull_slot_bijection_witness :
    0 < 2 ∧
    Function.Bijective (fun ck : Fin (2 * 2) × Fin 9 =>
      (⟨load_addr 2 2 ck.1.val 0 ck.2,
        load_addr_lt 2 2 ck.1.val 0 two_pos two_pos ck.1.isLt ck.2⟩ : Fin (9 * (2 * 2)))) ∧
    Function.Bijective (fun ck : Fin (2 * 2) × Fin 9 =>
      (⟨store_addr 2 2 ck.1.val 0 ck.2,
        store_addr_lt 2 2 ck.1.val 0 two_pos two_pos ck.1.isLt ck.2⟩ : Fin (9 * (2 * 2)))) :=
  ⟨two_pos, esoteric_pull_slot_bijection 2 2 0 two_pos two_pos⟩

lemma load_idx_stream_target (Nx Ny cell : ℕ) (h1 : 0 < Nx) (h2 : 0 < Ny)
    (hc : cell < Nx * Ny) (k : Fin 9) :
    load_idx Nx Ny (stream_target Nx Ny cell k) k = store_idx Nx Ny cell k := by
  unfold load_idx store_idx stream_target
  by_cases hk0 : k.val = 0
  · simp [hk0]
  · by_cases hodd : k.val % 2 = 1
    · simp [hk0, hodd]
    · have heven : k.val % 2 = 0 := by omega
      rw [if_pos (⟨heven, hk0⟩ : k.val % 2 = 0 ∧ k.val ≠ 0), if_neg hk0, if_neg hodd]
      exact neighbor_opp Nx Ny cell h1 h2 hc k (fun h => hk0 (by rw [h]; rfl))

/-- C2: parity streaming round-trip.  For every cell and population index,
the f-buffer address the step kernel's store phase writes at parity `p`
equals the address from which the load phase at parity `1−p` reads that
population at the stream-target cell; so a population streamed toward a
neighbor on one tick is loaded as that neighbor's incoming population on
the next tick, reproducing the standard two-grid streaming pattern. -/
theorem parity_streaming_roundtrip (Nx Ny cell parity : ℕ) (h1 : 0 < Nx)
    (h2 : 0 < Ny) (hc : cell < Nx * Ny) (hp : parity = 0 ∨ parity = 1)
    (k : Fin 9) :
    store_addr Nx Ny cell parity k =
      load_addr Nx Ny (stream_target Nx Ny cell k) (1 - parity) k := by
  rw [store_addr_eq, load_addr_eq, load_idx_stream_target Nx Ny cell h1 h2 hc k]
  rcases hp with hp | hp <;> subst hp <;> rfl

/-- Witness for C2 on a concrete 3×3 lattice: cell 4's east population,
stored at parity 0, sits at the slot its east neighbor loads at parity 1. -/
theorem parity_streaming_roundtrip_witness :
    (0 < 3 ∧ (4 : ℕ) < 3 * 3 ∧ ((0 : ℕ) = 0 ∨ (0 : ℕ) = 1)) ∧
    store_addr 3 3 4 0 1 = load_addr 3 3 (stream_target 3 3 4 1) (1 - 0) 1 :=
  ⟨⟨three_pos, by omega, Or.inl rfl⟩,
   parity_streaming_roundtrip 3 3 4 0 three_pos three_pos (by omega) (Or.inl rfl) 1⟩

/-! ### Integer-modulus characterization of the wraparound -/

lemma int_axis_up (Nx x : ℕ) (hx : x < Nx) :
    (((x : ℤ) + 1) % (Nx : ℤ)).toNat = (x + 1) % Nx := by
  have h : (x : ℤ) + 1 = ((x + 1 : ℕ) : ℤ) := by push_cast; ring
  rw [h, ← Int.natCast_mod, Int.toNat_natCast]

lemma int_axis_same (Nx x : ℕ) (hx : x < Nx) :
    (((x : ℤ) + 0) % (Nx : ℤ)).toNat = x := by
  rw [add_zero, Int.emod_eq_of_lt (by positivity) (by exact_mod_cast hx),
    Int.toNat_natCast]

lemma int_axis_down (Nx x : ℕ) (hx : x < Nx) :
    (((x : ℤ) - 1) % (Nx : ℤ)).toNat = (x + Nx - 1) % Nx := by
  have h1 : ((x : ℤ) - 1) % (Nx : ℤ) = ((x : ℤ) - 1 + (Nx : ℤ) * 1) % (Nx : ℤ) :=
    (Int.add_mul_emod_self_left ((x : ℤ) - 1) (Nx : ℤ) 1).symm
  have h2 : (x : ℤ) - 1 + (Nx : ℤ) * 1 = ((x + Nx - 1 : ℕ) : ℤ) := by omega
  rw [h1, h2, ← Int.natCast_mod, Int.toNat_natCast]

/-- C10: neighbor addressing is periodic.  `get_neighbors` computes each of
the eight neighbor indices with modular wraparound in both axes — the
neighbor of `(x, y)` in direction `k` is `((x + EX k) mod Nx, (y + EY k) mod
Ny)` — so a cell on a domain edge addresses cells on the opposite edge, while
the non-periodic `in_bounds` check rejects the unwrapped neighbor coordinate
(the streaming kernel never applies it: its loads and stores go through
`get_neighbors`). -/
theorem periodic_neighbor_addressing (Nx Ny cell : ℕ) (h1 : 0 < Nx)
    (h2 : 0 < Ny) (hc : cell < Nx * Ny) :
    (∀ k : Fin 9, k ≠ 0 →
      get_neighbors Nx Ny cell k =
        ((((cell % Nx : ℕ) : ℤ) + EX k) % (Nx : ℤ)).toNat +
          ((((cell / Nx : ℕ) : ℤ) + EY k) % (Ny : ℤ)).toNat * Nx) ∧
    (cell % Nx = Nx - 1 →
      in_bounds (((cell % Nx : ℕ) : ℤ) + 1) ((cell / Nx : ℕ) : ℤ) Nx Ny = false ∧
      get_neighbors Nx Ny cell 1 % Nx = 0) := by
  have hx : cell % Nx < Nx := cell_x_lt Nx cell h1
  have hy : cell / Nx < Ny := cell_y_lt Nx Ny cell hc
  constructor
  · intro k hk
    fin_cases k
    · exact absurd rfl hk
    · show get_neighbors Nx Ny cell 1 =
        ((((cell % Nx : ℕ) : ℤ) + 1) % (Nx : ℤ)).toNat +
          ((((cell / Nx : ℕ) : ℤ) + 0) % (Ny : ℤ)).toNat * Nx
      rw [gn1, int_axis_up Nx _ hx, int_axis_same Ny _ hy]
    · show get_neighbors Nx Ny cell 2 =
        ((((cell % Nx : ℕ) : ℤ) + -1) % (Nx : ℤ)).toNat +
          ((((cell / Nx : ℕ) : ℤ) + 0) % (Ny : ℤ)).toNat * Nx
      rw [gn2, show (((cell % Nx : ℕ) : ℤ) + -1) = (((cell % Nx : ℕ) : ℤ) - 1) by ring,
        int_axis_down Nx _ hx, int_axis_same Ny _ hy]
    · show get_neighbors Nx Ny cell 3 =
        ((((cell % Nx : ℕ) : ℤ) + 0) % (Nx : ℤ)).toNat +
          ((((cell / Nx : ℕ) : ℤ) + 1) % (Ny : ℤ)).toNat * Nx
      rw [gn3, int_axis_same Nx _ hx, int_axis_up Ny _ hy]
    · show get_neighbors Nx Ny cell 4 =
        ((((cell % Nx : ℕ) : ℤ) + 0) % (Nx : ℤ)).toNat +
          ((((cell / Nx : ℕ) : ℤ) + -1) % (Ny : ℤ)).toNat * Nx
      rw [gn4, int_axis_same Nx _ hx,
        show (((cell / Nx : ℕ) : ℤ) + -1) = (((cell / Nx : ℕ) : ℤ) - 1) by ring,
        int_axis_down Ny _ hy]
    · show get_neighbors Nx Ny cell 5 =
        ((((cell % Nx : ℕ) : ℤ) + 1) % (Nx : ℤ)).toNat +
          ((((cell / Nx : ℕ) : ℤ) + 1) % (Ny : ℤ)).toNat * Nx
      rw [gn5, int_axis_up Nx _ hx, int_axis_up Ny _ hy]
    · show get_neighbors Nx Ny cell 6 =
        ((((cell % Nx : ℕ) : ℤ) + -1) % (Nx : ℤ)).toNat +
          ((((cell / Nx : ℕ) : ℤ) + -1) % (Ny : ℤ)).toNat * Nx
      rw [gn6, show (((cell % Nx : ℕ) : ℤ) + -1) = (((cell % Nx : ℕ) : ℤ) - 1) by ring,
        show (((cell / Nx : ℕ) : ℤ) + -1) = (((cell / Nx : ℕ) : ℤ) - 1) by ring,
        int_axis_down Nx _ hx, int_axis_down Ny _ hy]
    · show get_neighbors Nx Ny cell 7 =
        ((((cell % Nx : ℕ) : ℤ) + 1) % (Nx : ℤ)).toNat +
          ((((cell / Nx : ℕ) : ℤ) + -1) % (Ny : ℤ)).toNat * Nx
      rw [gn7, int_axis_up Nx _ hx,
        show (((cell / Nx : ℕ) : ℤ) + -1) = (((cell / Nx : ℕ) : ℤ) - 1) by ring,
        int_axis_down Ny _ hy]
    · show get_neighbors Nx Ny cell 8 =
        ((((cell % Nx : ℕ) : ℤ) + -1) % (Nx : ℤ)).toNat +
          ((((cell / Nx : ℕ) : ℤ) + 1) % (Ny : ℤ)).toNat * Nx
      rw [gn8, show (((cell % Nx : ℕ) : ℤ) + -1) = (((cell % Nx : ℕ) : ℤ) - 1) by ring,
        int_axis_down Nx _ hx, int_axis_up Ny _ hy]
  · intro hedge
    constructor
    · have hlt : ¬ (((cell % Nx : ℕ) : ℤ) + 1 < (Nx : ℤ)) := by omega
      unfold in_bounds
      rw [decide_eq_false hlt]
      simp
    · rw [gn1, comp_mod Nx _ _ (Nat.mod_lt _ h1)]
      rw [hedge]
      have : Nx - 1 + 1 = Nx := by omega
      rw [this, Nat.mod_self]

/-- Witness for C10 on a 4×3 lattice at the right-edge cell 7 = (3, 1): the
wraparound formula holds and the east neighbor is on the left edge. -/
theorem periodic_neighbor_addressing_witness :
    ((0 < 4 ∧ 0 < 3 ∧ (7 : ℕ) < 4 * 3) ∧ (1 : Fin 9) ≠ 0 ∧ (7 : ℕ) % 4 = 4 - 1) ∧
    get_neighbors 4 3 7 1 =
      ((((7 % 4 : ℕ) : ℤ) + EX 1) % (4 : ℤ)).toNat +
        ((((7 / 4 : ℕ) : ℤ) + EY 1) % (3 : ℤ)).toNat * 4 ∧
    in_bounds (((7 % 4 : ℕ) : ℤ) + 1) ((7 / 4 : ℕ) : ℤ) 4 3 = false ∧
    get_neighbors 4 3 7 1 % 4 = 0 :=
  ⟨⟨⟨by omega, by omega, by omega⟩, by decide, by omega⟩,
   (periodic_neighbor_addressing 4 3 7 (by omega) (by omega) (by omega)).1 1 (by decide),
   (periodic_neighbor_addressing 4 3 7 (by omega) (by omega) (by omega)).2 (by omega)⟩

lemma feq_moments (rho ux uy : ℚ) (h : rho ≠ 0) :
    calculate_rho_u (feq_d2q9_shifted rho (ux, uy)) = (rho, ux, uy) := by
  have h0 : feq_d2q9_shifted rho (ux, uy) 0 =
      W0 * (rho * ((1 / 2) * (-3 * (ux * ux + uy * uy))) + (rho - 1)) := rfl
  have h1 : feq_d2q9_shifted rho (ux, uy) 1 =
      WS * rho * ((1 / 2) * (ux * 3 * (ux * 3) + -3 * (ux * ux + uy * uy)) + ux * 3) +
        WS * (rho - 1) := rfl
  have h2 : feq_d2q9_shifted rho (ux, uy) 2 =
      WS * rho * ((1 / 2) * (ux * 3 * (ux * 3) + -3 * (ux * ux + uy * uy)) - ux * 3) +
        WS * (rho - 1) := rfl
  have h3 : feq_d2q9_shifted rho (ux, uy) 3 =
      WS * rho * ((1 / 2) * (uy * 3 * (uy * 3) + -3 * (ux * ux + uy * uy)) + uy * 3) +
        WS * (rho - 1) := rfl
  have h4 : feq_d2q9_shifted rho (ux, uy) 4 =
      WS * rho * ((1 / 2) * (uy * 3 * (uy * 3) + -3 * (ux * ux + uy * uy)) - uy * 3) +
        WS * (rho - 1) := rfl
  have h5 : feq_d2q9_shifted rho (ux, uy) 5 =
      WE * rho * ((1 / 2) * ((ux * 3 + uy * 3) * (ux * 3 + uy * 3) +
        -3 * (ux * ux + uy * uy)) + (ux * 3 + uy * 3)) + WE * (rho - 1) := rfl
  have h6 : feq_d2q9_shifted rho (ux, uy) 6 =
      WE * rho * ((1 / 2) * ((ux * 3 + uy * 3) * (ux * 3 + uy * 3) +
        -3 * (ux * ux + uy * uy)) - (ux * 3 + uy * 3)) + WE * (rho - 1) := rfl
  have h7 : feq_d2q9_shifted rho (ux, uy) 7 =
      WE * rho * ((1 / 2) * ((ux * 3 - uy * 3) * (ux * 3 - uy * 3) +
        -3 * (ux * ux + uy * uy)) + (ux * 3 - uy * 3)) + WE * (rho - 1) := rfl
  have h8 : feq_d2q9_shifted rho (ux, uy) 8 =
      WE * rho * ((1 / 2) * ((ux * 3 - uy * 3) * (ux * 3 - uy * 3) +
        -3 * (ux * ux + uy * uy)) - (ux * 3 - uy * 3)) + WE * (rho - 1) := rfl
  simp only [calculate_rho_u]
  have hS : feq_d2q9_shifted rho (ux, uy) 0 + feq_d2q9_shifted rho (ux, uy) 1 +
      feq_d2q9_shifted rho (ux, uy) 2 + feq_d2q9_shifted rho (ux, uy) 3 +
      feq_d2q9_shifted rho (ux, uy) 4 + feq_d2q9_shifted rho (ux, uy) 5 +
      feq_d2q9_shifted rho (ux, uy) 6 + feq_d2q9_shifted rho (ux, uy) 7 +
      feq_d2q9_shifted rho (ux, uy) 8 + 1 = rho := by
    rw [h0, h1, h2, h3, h4, h5, h6, h7, h8]
    simp only [W0, WS, WE]
    ring
  have hX : feq_d2q9_shifted rho (ux, uy) 1 - feq_d2q9_shifted rho (ux, uy) 2 +
      feq_d2q9_shifted rho (ux, uy) 5 - feq_d2q9_shifted rho (ux, uy) 6 +
      feq_d2q9_shifted rho (ux, uy) 7 - feq_d2q9_shifted rho (ux, uy) 8 = rho * ux := by
    rw [h1, h2, h5, h6, h7, h8]
    simp only [WS, WE]
    ring
  have hY : feq_d2q9_shifted rho (ux, uy) 3 - feq_d2q9_shifted rho (ux, uy) 4 +
      feq_d2q9_shifted rho (ux, uy) 5 - feq_d2q9_shifted rho (ux, uy) 6 +
      feq_d2q9_shifted rho (ux, uy) 8 - feq_d2q9_shifted rho (ux, uy) 7 = rho * uy := by
    rw [h3, h4, h5, h6, h7, h8]
    simp only [WS, WE]
    ring
  rw [hS, hX, hY, mul_div_cancel_left₀ _ h, mul_div_cancel_left₀ _ h]

/-- C6 (amended: nonzero density): equilibrium is a fixed point of
collision.  For every density `rho ≠ 0`, velocity and relaxation rate, if
the nine loaded populations equal `feq_d2q9_shifted rho u`, then
`calculate_rho_u` recovers exactly `(rho, ux, uy)`, and the SRT-BGK update
with zero forcing maps every population to itself — collision is a no-op at
equilibrium, for arbitrary omega. -/
theorem equilibrium_fixed_point (rho ux uy omega : ℚ) (h : rho ≠ 0) :
    calculate_rho_u (feq_d2q9_shifted rho (ux, uy)) = (rho, ux, uy) ∧
    ∀ k : Fin 9,
      srt_collide omega
        (feq_d2q9_shifted (calculate_rho_u (feq_d2q9_shifted rho (ux, uy))).1
          ((calculate_rho_u (feq_d2q9_shifted rho (ux, uy))).2.1,
           (calculate_rho_u (feq_d2q9_shifted rho (ux, uy))).2.2) k)
        (feq_d2q9_shifted rho (ux, uy) k) 0
      = feq_d2q9_shifted rho (ux, uy) k := by
  have hmom := feq_moments rho ux uy h
  refine ⟨hmom, fun k => ?_⟩
  rw [hmom]
  show srt_collide omega (feq_d2q9_shifted rho (ux, uy) k)
    (feq_d2q9_shifted rho (ux, uy) k) 0 = feq_d2q9_shifted rho (ux, uy) k
  unfold srt_collide
  ring

/-- Counterexample to C6 as stated (for *every* density): at density 0 the
moment recomputation divides by a zero density, and the recovered velocity
is 0 rather than the equilibrium's velocity 1. -/
theorem equilibrium_fixed_point_zero_density_cex :
    (calculate_rho_u (feq_d2q9_shifted 0 (1, 0))).2.1 ≠ 1 := by
  norm_num [calculate_rho_u, feq_d2q9_shifted, W0, WS, WE]

/-- Witness for C6: at density 1, velocity `(1/20, 0)` and omega `17/10`,
the moments are recovered and collision fixes the equilibrium populations. -/
theorem equilibrium_fixed_point_witness :
    (1 : ℚ) ≠ 0 ∧
    calculate_rho_u (feq_d2q9_shifted 1 (1 / 20, 0)) = (1, 1 / 20, 0) ∧
    ∀ k : Fin 9,
      srt_collide (17 / 10)
        (feq_d2q9_shifted (calculate_rho_u (feq_d2q9_shifted 1 (1 / 20, 0))).1
          ((calculate_rho_u (feq_d2q9_shifted 1 (1 / 20, 0))).2.1,
           (calculate_rho_u (feq_d2q9_shifted 1 (1 / 20, 0))).2.2) k)
        (feq_d2q9_shifted 1 (1 / 20, 0) k) 0
      = feq_d2q9_shifted 1 (1 / 20, 0) k :=
  ⟨one_ne_zero, equilibrium_fixed_point 1 (1 / 20) 0 (17 / 10) one_ne_zero⟩

/-! ### Generic lemmas about folded pointwise updates -/

lemma foldl_update_skip {ι α : Type} (l : List ι) (g : ℕ → α) (A : ι → ℕ)
    (V : ι → α) (a0 : ℕ) (h : ∀ k ∈ l, A k ≠ a0) :
    (l.foldl (fun h2 k => Function.update h2 (A k) (V k)) g) a0 = g a0 := by
  induction l generalizing g with
  | nil => rfl
  | cons a l ih =>
    simp only [List.foldl_cons]
    rw [ih _ (fun k hk => h k (List.mem_cons_of_mem a hk))]
    exact Function.update_noteq (fun hh => h a (List.mem_cons_self a l) hh.symm) _ _

lemma foldl_update_get {ι α : Type} (l : List ι) (g : ℕ → α) (A : ι → ℕ)
    (V : ι → α) (k : ι) (hk : k ∈ l)
    (hinj : ∀ k2 ∈ l, A k2 = A k → k2 = k) :
    (l.foldl (fun h2 k2 => Function.update h2 (A k2) (V k2)) g) (A k) = V k := by
  induction l generalizing g with
  | nil => exact absurd hk (List.not_mem_nil k)
  | cons a l ih =>
    simp only [List.foldl_cons]
    by_cases hmem : k ∈ l
    · exact ih _ hmem (fun k2 hk2 => hinj k2 (List.mem_cons_of_mem a hk2))
    · have hka : k = a := by
        rcases List.mem_cons.1 hk with h | h
        · exact h
        · exact absurd h hmem
      subst hka
      rw [foldl_update_skip l _ A V (A k) ?_]
      · exact Function.update_same _ _ _
      · intro k2 hk2 hA
        exact hmem (hinj k2 (List.mem_cons_of_mem k hk2) hA ▸ hk2)

/-- C3 (amended: restricted to the solid cell's own invocation): a `step`
invocation at a cell whose mask has the SOLID bit set returns immediately —
it leaves the state unchanged and its footprint on `f`, `global_u` and
`global_rho` is empty.  (Invocations of neighboring non-solid cells do read
and write slots in the solid cell's `f` range: that is the implicit
bounce-back of the Esoteric-Pull scheme, see the counterexample.) -/
theorem solid_cells_inert (Nx Ny : ℕ) (omega : ℚ) (mask : ℕ → ℕ)
    (parity gx gy : ℕ) (s : LBMState)
    (hsolid : is_solid (mask (gx + gy * Nx)) = true) :
    step_cell Nx Ny omega mask parity gx gy s = s ∧
    step_cell_footprint Nx Ny mask parity gx gy = emptyFootprint := by
  constructor
  · simp only [step_cell]
    split
    · rfl
    · simp [hsolid]
  · simp only [step_cell_footprint]
    split
    · rfl
    · simp [hsolid]

/-- Counterexample to C3 as stated: on a 3×3 lattice whose center cell 4 is
solid, the step pass at parity 0 writes f-buffer slot 22 = `addr 2 4 9` — a
stored population of the solid cell — so the stored populations of a solid
cell *are* updated by the step pass (by its fluid neighbors' stores, which
is exactly the implicit bounce-back mechanism). -/
theorem solid_cells_inert_cex :
    22 ∈ step_pass_f_writes 3 3 mask3 0 ∧
    22 = addr 2 4 (3 * 3) ∧
    is_solid (mask3 4) = true := by
  refine ⟨by decide, rfl, by decide⟩

/-- Witness for C3: the invocation at the solid center cell of the 3×3
lattice leaves a concrete state unchanged and has an empty footprint. -/
theorem solid_cells_inert_witness :
    is_solid (mask3 (1 + 1 * 3)) = true ∧
    step_cell 3 3 1 mask3 0 1 1 ⟨fun _ => 0, fun _ => 0, fun _ => 0⟩ =
      ⟨fun _ => 0, fun _ => 0, fun _ => 0⟩ ∧
    step_cell_footprint 3 3 mask3 0 1 1 = emptyFootprint :=
  ⟨by decide,
   solid_cells_inert 3 3 1 mask3 0 1 1 ⟨fun _ => 0, fun _ => 0, fun _ => 0⟩ (by decide)⟩

lemma store_addr_k_inj (Nx Ny cell parity : ℕ) (h1 : 0 < Nx) (h2 : 0 < Ny)
    (hc : cell < Nx * Ny) (k k2 : Fin 9)
    (h : store_addr Nx Ny cell parity k = store_addr Nx Ny cell parity k2) :
    k = k2 := by
  have h3 : ((⟨cell, hc⟩ : Fin (Nx * Ny)), k) = ((⟨cell, hc⟩ : Fin (Nx * Ny)), k2) :=
    store_map_injective Nx Ny parity h1 h2 (Fin.ext h)
  exact congrArg Prod.snd h3

/-- `step_cell` on an in-grid, non-solid, equilibrium-boundary cell: the
outlet copy (for the rightmost column) is applied to the macroscopic
buffers, and the nine store slots receive the packed equilibrium of the
persisted macroscopic values; `omega` plays no role. -/
lemma step_cell_eq_reduce (Nx Ny : ℕ) (omega : ℚ) (mask : ℕ → ℕ)
    (parity gx gy : ℕ) (s : LBMState) (hx : gx < Nx) (hy : gy < Ny)
    (heq : is_eq (mask (gx + gy * Nx)) = true)
    (hsolid : is_solid (mask (gx + gy * Nx)) = false) :
    step_cell Nx Ny omega mask parity gx gy s =
      (let cell := gx + gy * Nx
       let C := Nx * Ny
       let inner := Nx - 2 + gy * Nx
       let s1 :=
         if gx = Nx - 1 then
           { s with
             global_rho := Function.update s.global_rho cell (s.global_rho inner),
             global_u := Function.update
               (Function.update s.global_u cell (s.global_u inner)) (C + cell)
               ((Function.update s.global_u cell (s.global_u inner)) (C + inner)) }
         else s
       let rhon := decode_f16s (s1.global_rho cell)
       let uxn := decode_f16s (s1.global_u cell)
       let uyn := decode_f16s (s1.global_u (C + cell))
       { s1 with
         f := (List.finRange 9).foldl
           (fun g k => Function.update g (store_addr Nx Ny cell parity k)
             (store_f16s (feq_d2q9_shifted rhon (uxn, uyn) k))) s1.f }) := by
  have hguard : ¬ (gx ≥ Nx ∨ gy ≥ Ny) := by omega
  simp only [step_cell]
  rw [if_neg hguard]
  simp only [hsolid, Bool.false_eq_true, if_false, heq, if_true, and_true,
    wgslSelect]

/-- C4: outlet zero-gradient condition.  For an equilibrium-boundary cell,
(a) if it sits in the rightmost column `x = Nx−1`, the step kernel first
copies its macroscopic `ρ, ux, uy` from the interior neighbor at `x = Nx−2`
in the same row; (b) the populations it writes back are exactly the packed
equilibrium distribution of the cell's persisted (post-copy) macroscopic
values; and (c) the result does not depend on the relaxation rate omega. -/
theorem outlet_zero_gradient (Nx Ny : ℕ) (omega : ℚ) (mask : ℕ → ℕ)
    (parity gx gy : ℕ) (s : LBMState) (hx : gx < Nx) (hy : gy < Ny)
    (heq : is_eq (mask (gx + gy * Nx)) = true)
    (hsolid : is_solid (mask (gx + gy * Nx)) = false) :
    (gx = Nx - 1 →
      (step_cell Nx Ny omega mask parity gx gy s).global_rho (gx + gy * Nx) =
        s.global_rho (Nx - 2 + gy * Nx) ∧
      (step_cell Nx Ny omega mask parity gx gy s).global_u (gx + gy * Nx) =
        s.global_u (Nx - 2 + gy * Nx) ∧
      (step_cell Nx Ny omega mask parity gx gy s).global_u
          (Nx * Ny + (gx + gy * Nx)) =
        s.global_u (Nx * Ny + (Nx - 2 + gy * Nx))) ∧
    (∀ k : Fin 9,
      (step_cell Nx Ny omega mask parity gx gy s).f
          (store_addr Nx Ny (gx + gy * Nx) parity k) =
        store_f16s (feq_d2q9_shifted
          (decode_f16s
            ((step_cell Nx Ny omega mask parity gx gy s).global_rho (gx + gy * Nx)))
          (decode_f16s
            ((step_cell Nx Ny omega mask parity gx gy s).global_u (gx + gy * Nx)),
           decode_f16s
            ((step_cell Nx Ny omega mask parity gx gy s).global_u
              (Nx * Ny + (gx + gy * Nx)))) k)) ∧
    (∀ omega2 : ℚ,
      step_cell Nx Ny omega2 mask parity gx gy s =
        step_cell Nx Ny omega mask parity gx gy s) := by
  have h1 : 0 < Nx := by omega
  have h2 : 0 < Ny := by omega
  have hcell : gx + gy * Nx < Nx * Ny := cell_lt_of_coords Nx Ny gx gy hx hy
  have hred := step_cell_eq_reduce Nx Ny omega mask parity gx gy s hx hy heq hsolid
  refine ⟨?_, ?_, ?_⟩
  · intro hgx
    rw [hred]
    simp only [if_pos hgx]
    refine ⟨Function.update_same _ _ _, ?_, ?_⟩
    · rw [Function.update_noteq (by omega), Function.update_same]
    · rw [Function.update_same, Function.update_noteq (by omega)]
  · intro k
    rw [hred]
    simp only
    exact foldl_update_get (List.finRange 9) _
      (store_addr Nx Ny (gx + gy * Nx) parity)
      _ k (List.mem_finRange k)
      (fun k2 _ h => store_addr_k_inj Nx Ny (gx + gy * Nx) parity h1 h2 hcell k2 k h)
  · intro omega2
    rw [hred, step_cell_eq_reduce Nx Ny omega2 mask parity gx gy s hx hy heq hsolid]

/-- Witness for C4 on a 3×1 lattice whose rightmost cell 2 is an
equilibrium outlet: the macroscopic values are copied from cell 1 and the
written populations are the packed equilibrium of the copied values, for
any omega. -/
theorem outlet_zero_gradient_witness :
    ((2 : ℕ) < 3 ∧ (0 : ℕ) < 1 ∧
      is_eq ((fun c => if c = 2 then CELL_EQ else CELL_FLUID) (2 + 0 * 3)) = true ∧
      is_solid ((fun c => if c = 2 then CELL_EQ else CELL_FLUID) (2 + 0 * 3)) = false) ∧
    ((2 : ℕ) = 3 - 1 →
      (step_cell 3 1 1 (fun c => if c = 2 then CELL_EQ else CELL_FLUID) 0 2 0
          ⟨fun a => a, fun a => a, fun a => a⟩).global_rho (2 + 0 * 3) =
        (⟨fun a => a, fun a => a, fun a => a⟩ : LBMState).global_rho (3 - 2 + 0 * 3) ∧
      (step_cell 3 1 1 (fun c => if c = 2 then CELL_EQ else CELL_FLUID) 0 2 0
          ⟨fun a => a, fun a => a, fun a => a⟩).global_u (2 + 0 * 3) =
        (⟨fun a => a, fun a => a, fun a => a⟩ : LBMState).global_u (3 - 2 + 0 * 3) ∧
      (step_cell 3 1 1 (fun c => if c = 2 then CELL_EQ else CELL_FLUID) 0 2 0
          ⟨fun a => a, fun a => a, fun a => a⟩).global_u (3 * 1 + (2 + 0 * 3)) =
        (⟨fun a => a, fun a => a, fun a => a⟩ : LBMState).global_u
          (3 * 1 + (3 - 2 + 0 * 3))) :=
  ⟨⟨by omega, by omega, by decide, by decide⟩,
   (outlet_zero_gradient 3 1 1 (fun c => if c = 2 then CELL_EQ else CELL_FLUID) 0 2 0
      ⟨fun a => a, fun a => a, fun a => a⟩ (by omega) (by omega)
      (by decide) (by decide)).1⟩

/-! ### Characterization of the init kernel's writes -/

lemma writeCellInit_f (C cell : ℕ) (hc : cell < C) (rv uxv uyv : ℚ)
    (fv : Fin 9 → ℚ) (s : LBMState) (a : ℕ) :
    (writeCellInit C cell rv uxv uyv fv s).f a =
      if h : a < 9 * C ∧ a % C = cell then
        pack_f16s (fv ⟨a / C, Nat.div_lt_of_lt_mul (by rw [Nat.mul_comm]; exact h.1)⟩)
      else s.f a := by
  unfold writeCellInit
  simp only
  split
  · next h =>
    have haddr : addr (a / C) cell C = a := by
      unfold addr
      rw [← h.2, Nat.mul_comm]
      exact Nat.div_add_mod a C
    conv_lhs => rw [← haddr]
    exact foldl_update_get (List.finRange 9) s.f (fun d => addr d.val cell C)
      (fun d => pack_f16s (fv d))
      ⟨a / C, Nat.div_lt_of_lt_mul (by rw [Nat.mul_comm]; exact h.1)⟩
      (List.mem_finRange _)
      (fun k2 _ hA => Fin.ext (addr_inj _ _ _ _ _ hc hc hA).1)
  · next h =>
    refine foldl_update_skip (List.finRange 9) s.f _ _ a (fun d _ hA => h ?_)
    constructor
    · rw [← hA]
      exact addr_lt d.val cell C d.isLt hc
    · rw [← hA]
      unfold addr
      rw [Nat.add_comm]
      exact comp_mod C cell d.val hc

lemma writeCellInit_u (C cell : ℕ) (rv uxv uyv : ℚ) (fv : Fin 9 → ℚ)
    (s : LBMState) (a : ℕ) :
    (writeCellInit C cell rv uxv uyv fv s).global_u a =
      if a = C + cell then pack_f16s uyv
      else if a = cell then pack_f16s uxv
      else s.global_u a := by
  unfold writeCellInit
  simp only
  by_cases h1 : a = C + cell
  · subst h1
    rw [Function.update_same, if_pos rfl]
  · rw [Function.update_noteq h1, if_neg h1]
    by_cases h2 : a = cell
    · subst h2
      rw [Function.update_same, if_pos rfl]
    · rw [Function.update_noteq h2, if_neg h2]

lemma writeCellInit_rho (C cell : ℕ) (rv uxv uyv : ℚ) (fv : Fin 9 → ℚ)
    (s : LBMState) (a : ℕ) :
    (writeCellInit C cell rv uxv uyv fv s).global_rho a =
      if a = cell then pack_f16s rv else s.global_rho a := by
  unfold writeCellInit
  simp only
  by_cases h1 : a = cell
  · subst h1
    rw [Function.update_same, if_pos rfl]
  · rw [Function.update_noteq h1, if_neg h1]

/-- `init_cell` in terms of the shared write-back pattern: every in-grid
invocation writes exactly its own cell's slots, with branch-selected
values. -/
lemma init_cell_eq_write (Nx Ny : ℕ) (iux iuy : ℚ) (mask : ℕ → ℕ)
    (gx gy : ℕ) (s : LBMState) (hx : gx < Nx) (hy : gy < Ny) :
    init_cell Nx Ny iux iuy mask gx gy s =
      writeCellInit (Nx * Ny) (gx + gy * Nx) 1
        (init_ux Nx iux (mask (gx + gy * Nx)) gx)
        (init_uy Nx iuy (mask (gx + gy * Nx)) gx)
        (init_fv Nx iux iuy (mask (gx + gy * Nx)) gx) s := by
  have hguard : ¬ (gx ≥ Nx ∨ gy ≥ Ny) := by omega
  simp only [init_cell, init_ux, init_uy, init_fv]
  rw [if_neg hguard]
  by_cases he : is_eq (mask (gx + gy * Nx)) = true
  · simp only [he, if_true]
    by_cases hgx : gx = Nx - 1 <;> simp [hgx]
  · simp only [Bool.not_eq_true] at he
    simp [he]

lemma init_cell_untouched (Nx Ny : ℕ) (iux iuy : ℚ) (mask : ℕ → ℕ)
    (c : ℕ) (st : LBMState) (a : ℕ) (hc : c < Nx * Ny)
    (hne : a % (Nx * Ny) ≠ c) :
    (init_cell Nx Ny iux iuy mask (c % Nx) (c / Nx) st).f a = st.f a ∧
    (init_cell Nx Ny iux iuy mask (c % Nx) (c / Nx) st).global_u a = st.global_u a ∧
    (init_cell Nx Ny iux iuy mask (c % Nx) (c / Nx) st).global_rho a = st.global_rho a := by
  have h0 : 0 < Nx := by
    rcases Nat.eq_zero_or_pos Nx with h | h
    · subst h; simp at hc
    · exact h
  have hx : c % Nx < Nx := Nat.mod_lt _ h0
  have hy : c / Nx < Ny := cell_y_lt Nx Ny c hc
  have hcell : c % Nx + c / Nx * Nx = c := cell_decomp Nx c
  rw [init_cell_eq_write Nx Ny iux iuy mask _ _ st hx hy, hcell]
  refine ⟨?_, ?_, ?_⟩
  · rw [writeCellInit_f _ _ hc, dif_neg (fun h => hne h.2)]
  · rw [writeCellInit_u, if_neg ?_, if_neg ?_]
    · intro h
      apply hne
      rw [h, Nat.mod_eq_of_lt hc]
    · intro h
      apply hne
      rw [h, Nat.add_mod_left, Nat.mod_eq_of_lt hc]
  · rw [writeCellInit_rho, if_neg ?_]
    intro h
    apply hne
    rw [h, Nat.mod_eq_of_lt hc]

lemma init_cell_owned (Nx Ny : ℕ) (iux iuy : ℚ) (mask : ℕ → ℕ)
    (c : ℕ) (s s2 : LBMState) (a : ℕ) (hc : c < Nx * Ny)
    (hmod : a % (Nx * Ny) = c) :
    (a < 9 * (Nx * Ny) →
      (init_cell Nx Ny iux iuy mask (c % Nx) (c / Nx) s).f a =
        (init_cell Nx Ny iux iuy mask (c % Nx) (c / Nx) s2).f a) ∧
    (a < 2 * (Nx * Ny) →
      (init_cell Nx Ny iux iuy mask (c % Nx) (c / Nx) s).global_u a =
        (init_cell Nx Ny iux iuy mask (c % Nx) (c / Nx) s2).global_u a) ∧
    (a < Nx * Ny →
      (init_cell Nx Ny iux iuy mask (c % Nx) (c / Nx) s).global_rho a =
        (init_cell Nx Ny iux iuy mask (c % Nx) (c / Nx) s2).global_rho a) := by
  have h0 : 0 < Nx := by
    rcases Nat.eq_zero_or_pos Nx with h | h
    · subst h; simp at hc
    · exact h
  have hx : c % Nx < Nx := Nat.mod_lt _ h0
  have hy : c / Nx < Ny := cell_y_lt Nx Ny c hc
  have hcell : c % Nx + c / Nx * Nx = c := cell_decomp Nx c
  rw [init_cell_eq_write Nx Ny iux iuy mask _ _ s hx hy,
    init_cell_eq_write Nx Ny iux iuy mask _ _ s2 hx hy, hcell]
  refine ⟨?_, ?_, ?_⟩
  · intro h9
    rw [writeCellInit_f _ _ hc, writeCellInit_f _ _ hc,
      dif_pos ⟨h9, hmod⟩, dif_pos ⟨h9, hmod⟩]
  · intro h2C
    have hsplit : a = c ∨ a = Nx * Ny + c := by
      have hdm := Nat.div_add_mod a (Nx * Ny)
      have hdlt : a / (Nx * Ny) < 2 :=
        Nat.div_lt_of_lt_mul (by rw [Nat.mul_comm]; exact h2C)
      interval_cases h : a / (Nx * Ny)
      · left; omega
      · right; omega
    rw [writeCellInit_u, writeCellInit_u]
    rcases hsplit with h | h
    · have hne2 : a ≠ Nx * Ny + c := by omega
      rw [if_neg hne2, if_neg hne2, if_pos h, if_pos h]
    · rw [if_pos h, if_pos h]
  · intro hC
    have ha : a = c := by rw [← hmod, Nat.mod_eq_of_lt hC]
    rw [writeCellInit_rho, writeCellInit_rho, if_pos ha, if_pos ha]

lemma init_fold_untouched (Nx Ny : ℕ) (iux iuy : ℚ) (mask : ℕ → ℕ)
    (l : List ℕ) :
    ∀ (st : LBMState) (a : ℕ), (∀ c ∈ l, c < Nx * Ny) → a % (Nx * Ny) ∉ l →
    ((l.foldl (fun s2 c => init_cell Nx Ny iux iuy mask (c % Nx) (c / Nx) s2)
        st).f a = st.f a ∧
     (l.foldl (fun s2 c => init_cell Nx Ny iux iuy mask (c % Nx) (c / Nx) s2)
        st).global_u a = st.global_u a ∧
     (l.foldl (fun s2 c => init_cell Nx Ny iux iuy mask (c % Nx) (c / Nx) s2)
        st).global_rho a = st.global_rho a) := by
  induction l with
  | nil => intro st a _ _; exact ⟨rfl, rfl, rfl⟩
  | cons c l ih =>
    intro st a hl hnot
    simp only [List.foldl_cons]
    have hc : c < Nx * Ny := hl c (List.mem_cons_self c l)
    have hne : a % (Nx * Ny) ≠ c := fun h => hnot (h ▸ List.mem_cons_self c l)
    have hcell := init_cell_untouched Nx Ny iux iuy mask c st a hc hne
    have hrest := ih (init_cell Nx Ny iux iuy mask (c % Nx) (c / Nx) st) a
      (fun c2 h => hl c2 (List.mem_cons_of_mem c h))
      (fun h => hnot (List.mem_cons_of_mem c h))
    exact ⟨hrest.1.trans hcell.1, hrest.2.1.trans hcell.2.1,
      hrest.2.2.trans hcell.2.2⟩

lemma init_fold_indep (Nx Ny : ℕ) (iux iuy : ℚ) (mask : ℕ → ℕ)
    (l : List ℕ) :
    ∀ (s s2 : LBMState) (a : ℕ), (∀ c ∈ l, c < Nx * Ny) → l.Nodup →
      a % (Nx * Ny) ∈ l →
    ((a < 9 * (Nx * Ny) →
      (l.foldl (fun t c => init_cell Nx Ny iux iuy mask (c % Nx) (c / Nx) t)
        s).f a =
      (l.foldl (fun t c => init_cell Nx Ny iux iuy mask (c % Nx) (c / Nx) t)
        s2).f a) ∧
     (a < 2 * (Nx * Ny) →
      (l.foldl (fun t c => init_cell Nx Ny iux iuy mask (c % Nx) (c / Nx) t)
        s).global_u a =
      (l.foldl (fun t c => init_cell Nx Ny iux iuy mask (c % Nx) (c / Nx) t)
        s2).global_u a) ∧
     (a < Nx * Ny →
      (l.foldl (fun t c => init_cell Nx Ny iux iuy mask (c % Nx) (c / Nx) t)
        s).global_rho a =
      (l.foldl (fun t c => init_cell Nx Ny iux iuy mask (c % Nx) (c / Nx) t)
        s2).global_rho a)) := by
  induction l with
  | nil => intro s s2 a _ _ hmem; exact absurd hmem (List.not_mem_nil _)
  | cons c l ih =>
    intro s s2 a hl hnd hmem
    simp only [List.foldl_cons]
    by_cases hm : a % (Nx * Ny) ∈ l
    · exact ih _ _ a (fun c2 h => hl c2 (List.mem_cons_of_mem c h))
        (List.Nodup.of_cons hnd) hm
    · have hceq : a % (Nx * Ny) = c := by
        rcases List.mem_cons.1 hmem with h | h
        · exact h
        · exact absurd h hm
      have hc : c < Nx * Ny := hl c (List.mem_cons_self c l)
      have hnotl : a % (Nx * Ny) ∉ l := hm
      have hun1 := init_fold_untouched Nx Ny iux iuy mask l
        (init_cell Nx Ny iux iuy mask (c % Nx) (c / Nx) s) a
        (fun c2 h => hl c2 (List.mem_cons_of_mem c h)) hnotl
      have hun2 := init_fold_untouched Nx Ny iux iuy mask l
        (init_cell Nx Ny iux iuy mask (c % Nx) (c / Nx) s2) a
        (fun c2 h => hl c2 (List.mem_cons_of_mem c h)) hnotl
      have hown := init_cell_owned Nx Ny iux iuy mask c s s2 a hc hceq
      exact ⟨fun h9 => (hun1.1.trans (hown.1 h9)).trans hun2.1.symm,
        fun h2C => (hun1.2.1.trans (hown.2.1 h2C)).trans hun2.2.1.symm,
        fun hC => (hun1.2.2.trans (hown.2.2 hC)).trans hun2.2.2.symm⟩

/-- C7: initialization is idempotent.  The init kernel's output on every
buffer element depends only on the mask and the parameters, never on the
prior contents of `f`, `global_u` or `global_rho` (first three conjuncts:
two passes from arbitrary different states agree on all `9C` f-slots, `2C`
velocity slots and `C` density slots); hence re-running the pass on an
unmodified mask reproduces the buffers bit for bit (last three conjuncts). -/
theorem init_idempotent (Nx Ny : ℕ) (iux iuy : ℚ) (mask : ℕ → ℕ)
    (s s2 : LBMState) :
    (∀ a, a < 9 * (Nx * Ny) →
      (init_pass Nx Ny iux iuy mask s).f a = (init_pass Nx Ny iux iuy mask s2).f a) ∧
    (∀ a, a < 2 * (Nx * Ny) →
      (init_pass Nx Ny iux iuy mask s).global_u a =
        (init_pass Nx Ny iux iuy mask s2).global_u a) ∧
    (∀ a, a < Nx * Ny →
      (init_pass Nx Ny iux iuy mask s).global_rho a =
        (init_pass Nx Ny iux iuy mask s2).global_rho a) ∧
    (∀ a, a < 9 * (Nx * Ny) →
      (init_pass Nx Ny iux iuy mask (init_pass Nx Ny iux iuy mask s)).f a =
        (init_pass Nx Ny iux iuy mask s).f a) ∧
    (∀ a, a < 2 * (Nx * Ny) →
      (init_pass Nx Ny iux iuy mask (init_pass Nx Ny iux iuy mask s)).global_u a =
        (init_pass Nx Ny iux iuy mask s).global_u a) ∧
    (∀ a, a < Nx * Ny →
      (init_pass Nx Ny iux iuy mask (init_pass Nx Ny iux iuy mask s)).global_rho a =
        (init_pass Nx Ny iux iuy mask s).global_rho a) := by
  have key : ∀ (t t2 : LBMState) (a : ℕ), 0 < Nx * Ny →
      ((a < 9 * (Nx * Ny) →
        (init_pass Nx Ny iux iuy mask t).f a = (init_pass Nx Ny iux iuy mask t2).f a) ∧
       (a < 2 * (Nx * Ny) →
        (init_pass Nx Ny iux iuy mask t).global_u a =
          (init_pass Nx Ny iux iuy mask t2).global_u a) ∧
       (a < Nx * Ny →
        (init_pass Nx Ny iux iuy mask t).global_rho a =
          (init_pass Nx Ny iux iuy mask t2).global_rho a)) := by
    intro t t2 a hC
    exact init_fold_indep Nx Ny iux iuy mask (List.range (Nx * Ny)) t t2 a
      (fun c h => List.mem_range.1 h) (List.nodup_range _)
      (List.mem_range.2 (Nat.mod_lt _ hC))
  refine ⟨fun a ha => (key s s2 a (by omega)).1 ha,
    fun a ha => (key s s2 a (by omega)).2.1 ha,
    fun a ha => (key s s2 a (by omega)).2.2 ha,
    fun a ha => (key (init_pass Nx Ny iux iuy mask s) s a (by omega)).1 ha,
    fun a ha => (key (init_pass Nx Ny iux iuy mask s) s a (by omega)).2.1 ha,
    fun a ha => (key (init_pass Nx Ny iux iuy mask s) s a (by omega)).2.2 ha⟩

/-- Witness for C7 on a 1×1 lattice: starting from two different states
(all-zero and all-one buffers), the init pass produces the same f-slot 0,
and re-running it reproduces it. -/
theorem init_idempotent_witness :
    (0 : ℕ) < 9 * (1 * 1) ∧
    (init_pass 1 1 0 0 (fun _ => 0) ⟨fun _ => 0, fun _ => 0, fun _ => 0⟩).f 0 =
      (init_pass 1 1 0 0 (fun _ => 0) ⟨fun _ => 1, fun _ => 1, fun _ => 1⟩).f 0 ∧
    (init_pass 1 1 0 0 (fun _ => 0)
        (init_pass 1 1 0 0 (fun _ => 0) ⟨fun _ => 0, fun _ => 0, fun _ => 0⟩)).f 0 =
      (init_pass 1 1 0 0 (fun _ => 0) ⟨fun _ => 0, fun _ => 0, fun _ => 0⟩).f 0 :=
  ⟨by omega,
   (init_idempotent 1 1 0 0 (fun _ => 0) ⟨fun _ => 0, fun _ => 0, fun _ => 0⟩
      ⟨fun _ => 1, fun _ => 1, fun _ => 1⟩).1 0 (by omega),
   (init_idempotent 1 1 0 0 (fun _ => 0) ⟨fun _ => 0, fun _ => 0, fun _ => 0⟩
      ⟨fun _ => 1, fun _ => 1, fun _ => 1⟩).2.2.2.1 0 (by omega)⟩

/-! ### The half-precision round-trip bound -/

lemma rne_err (q : ℚ) : |((rne q : ℤ) : ℚ) - q| ≤ 1 / 2 := by
  have hfl : ((⌊q⌋ : ℤ) : ℚ) ≤ q := Int.floor_le q
  have hfl2 : q < ((⌊q⌋ : ℤ) : ℚ) + 1 := Int.lt_floor_add_one q
  unfold rne
  split_ifs with h1 h2 h3 <;> push_cast <;> rw [abs_le] <;> constructor <;> linarith

lemma ulp_pos (x : ℚ) : 0 < ulp_f16 x := by
  unfold ulp_f16
  split <;> positivity

lemma f16_rne_err (x : ℚ) : |f16_rne x - x| ≤ ulp_f16 x / 2 := by
  have hu := ulp_pos x
  have h := rne_err (x / ulp_f16 x)
  unfold f16_rne
  have hrw : ((rne (x / ulp_f16 x) : ℤ) : ℚ) * ulp_f16 x - x =
      (((rne (x / ulp_f16 x) : ℤ) : ℚ) - x / ulp_f16 x) * ulp_f16 x := by
    field_simp
  rw [hrw, abs_mul, abs_of_pos hu]
  calc |((rne (x / ulp_f16 x) : ℤ) : ℚ) - x / ulp_f16 x| * ulp_f16 x
      ≤ (1 / 2) * ulp_f16 x := mul_le_mul_of_nonneg_right h (le_of_lt hu)
    _ = ulp_f16 x / 2 := by ring

lemma ulp_le_32 (x : ℚ) (hx : |x| ≤ 32768) : ulp_f16 x ≤ 32 := by
  unfold ulp_f16
  split
  · calc (2 : ℚ) ^ (-24 : ℤ) ≤ (2 : ℚ) ^ (5 : ℤ) :=
        zpow_le_zpow_right₀ one_le_two (by omega)
      _ = 32 := by norm_num
  · next h =>
    have hpos : (0 : ℚ) < |x| := lt_of_lt_of_le (by positivity) (not_lt.1 h)
    have hlog : Int.log 2 |x| ≤ 15 := by
      have h15 : |x| ≤ ((2 : ℕ) : ℚ) ^ (15 : ℤ) := by push_cast; norm_num; exact hx
      calc Int.log 2 |x| ≤ Int.log 2 (((2 : ℕ) : ℚ) ^ (15 : ℤ)) :=
          Int.log_mono_right hpos h15
        _ = 15 := Int.log_zpow (by omega) 15
    calc (2 : ℚ) ^ (Int.log 2 |x| - 10) ≤ (2 : ℚ) ^ (5 : ℤ) :=
        zpow_le_zpow_right₀ one_le_two (by omega)
      _ = 32 := by norm_num

/-- C5: encode/decode round-trip.  Encoding multiplies by exactly `2^15` and
rounds to binary16 (round to nearest, ties to even); decoding multiplies the
stored value by exactly `2^-15`.  For every `v ∈ [−1, 1]`,
`|decode(encode(v)) − v|` is at most one ULP of the half-precision format at
scale `2^15` (namely `32·2^-15 = 2^-10`); encode and decode are mutually
inverse up to this rounding. -/
theorem encode_decode_roundtrip (v : ℚ) (h1 : -1 ≤ v) (h2 : v ≤ 1) :
    |decode_f16s (encode_f16s v) - v| ≤ 32 * FP16S_INV_SCALE := by
  have hx : |v * 32768| ≤ 32768 := by
    rw [abs_mul, show |(32768 : ℚ)| = 32768 by norm_num]
    have hv : |v| ≤ 1 := abs_le.2 ⟨h1, h2⟩
    nlinarith [abs_nonneg v]
  have herr := f16_rne_err (v * 32768)
  have hulp := ulp_le_32 (v * 32768) hx
  unfold decode_f16s encode_f16s FP16S_INV_SCALE FP16S_SCALE
  have hrw : f16_rne (v * 32768) * (1 / 32768) - v =
      (f16_rne (v * 32768) - v * 32768) * (1 / 32768) := by ring
  rw [hrw, abs_mul, show |(1 : ℚ) / 32768| = 1 / 32768 by norm_num]
  calc |f16_rne (v * 32768) - v * 32768| * (1 / 32768)
      ≤ (ulp_f16 (v * 32768) / 2) * (1 / 32768) :=
        mul_le_mul_of_nonneg_right herr (by norm_num)
    _ ≤ (32 / 2) * (1 / 32768) := by
        have : ulp_f16 (v * 32768) / 2 ≤ 32 / 2 := by linarith
        exact mul_le_mul_of_nonneg_right this (by norm_num)
    _ ≤ 32 * (1 / 32768) := by norm_num

/-- Witness for C5 at `v = 1/2` (the bound holds there; in fact `1/2` is
exactly representable). -/
theorem encode_decode_roundtrip_witness :
    (-1 : ℚ) ≤ 1 / 2 ∧ (1 / 2 : ℚ) ≤ 1 ∧
    |decode_f16s (encode_f16s (1 / 2)) - 1 / 2| ≤ 32 * FP16S_INV_SCALE :=
  ⟨by norm_num, by norm_num,
   encode_decode_roundtrip (1 / 2) (by norm_num) (by norm_num)⟩

/-! ### Lemmas about the mask-edit loops -/

lemma foldl_cupdate_skip {α : Type} (l : List ℕ) (g : ℕ → α) (P : ℕ → Prop)
    [DecidablePred P] (A : ℕ → ℕ) (v : α) (a : ℕ)
    (h : ∀ i ∈ l, P i → A i ≠ a) :
    (l.foldl (fun g2 i => if P i then Function.update g2 (A i) v else g2) g) a
      = g a := by
  induction l generalizing g with
  | nil => rfl
  | cons i l ih =>
    simp only [List.foldl_cons]
    rw [ih _ (fun i2 h2 => h i2 (List.mem_cons_of_mem i h2))]
    split
    · next hP =>
      exact Function.update_noteq
        (fun hh => h i (List.mem_cons_self i l) hP hh.symm) _ _
    · rfl

lemma foldl_cupdate_const {α : Type} (l : List ℕ) (g : ℕ → α) (P : ℕ → Prop)
    [DecidablePred P] (A : ℕ → ℕ) (v : α) (a : ℕ)
    (h : ∃ i ∈ l, P i ∧ A i = a) :
    (l.foldl (fun g2 i => if P i then Function.update g2 (A i) v else g2) g) a
      = v := by
  induction l generalizing g with
  | nil => obtain ⟨i, hi, _⟩ := h; exact absurd hi (List.not_mem_nil i)
  | cons i l ih =>
    simp only [List.foldl_cons]
    by_cases hl : ∃ i2 ∈ l, P i2 ∧ A i2 = a
    · exact ih _ hl
    · obtain ⟨i0, hi0, hP0, hA0⟩ := h
      have hi0head : i0 = i := by
        rcases List.mem_cons.1 hi0 with hh | hh
        · exact hh
        · exact absurd ⟨i0, hh, hP0, hA0⟩ hl
      subst hi0head
      rw [foldl_cupdate_skip l _ P A v a
        (fun i2 h2 hP2 hA2 => hl ⟨i2, h2, hP2, hA2⟩)]
      rw [if_pos hP0, hA0, Function.update_same]

lemma foldl_cupdate_or {α : Type} (l : List ℕ) (g : ℕ → α) (P : ℕ → Prop)
    [DecidablePred P] (A : ℕ → ℕ) (v : α) (a : ℕ) :
    (l.foldl (fun g2 i => if P i then Function.update g2 (A i) v else g2) g) a
      = v ∨
    (l.foldl (fun g2 i => if P i then Function.update g2 (A i) v else g2) g) a
      = g a := by
  induction l generalizing g with
  | nil => exact Or.inr rfl
  | cons i l ih =>
    simp only [List.foldl_cons]
    rcases ih (if P i then Function.update g (A i) v else g) with h | h
    · exact Or.inl h
    · rw [h]
      split
    -- the head update either wrote `a` (value v) or left it alone
      · by_cases hA : A i = a
        · subst hA
          exact Or.inl (Function.update_same _ _ _)
        · exact Or.inr (Function.update_noteq (fun hh => hA hh.symm) _ _)
      · exact Or.inr rfl

lemma writeRowSpan_covered (Nx C : ℕ) (value : ℕ) (y x0 x1 : ℤ)
    (cpu : ℕ → ℕ) (a : ℕ)
    (hcov : y * (Nx : ℤ) + x0 ≤ (a : ℤ) ∧ (a : ℤ) ≤ y * (Nx : ℤ) + x1)
    (hin : 0 ≤ y * (Nx : ℤ) + x0 ∧ y * (Nx : ℤ) + x1 < (C : ℤ)) :
    writeRowSpan Nx C value y x0 x1 cpu a = value := by
  unfold writeRowSpan
  refine foldl_cupdate_const (List.range (x1 - x0 + 1).toNat) cpu
    (fun i => 0 ≤ y * (Nx : ℤ) + (x0 + (i : ℤ)) ∧
      y * (Nx : ℤ) + (x0 + (i : ℤ)) < (C : ℤ))
    (fun i => (y * (Nx : ℤ) + (x0 + (i : ℤ))).toNat) value a
    ⟨((a : ℤ) - (y * (Nx : ℤ) + x0)).toNat, ?_, ?_, ?_⟩
  · rw [List.mem_range]
    omega
  · simp only []
    constructor <;> omega
  · simp only []
    omega

lemma writeRowSpan_not_covered (Nx C : ℕ) (value : ℕ) (y x0 x1 : ℤ)
    (cpu : ℕ → ℕ) (a : ℕ)
    (hncov : ¬ (y * (Nx : ℤ) + x0 ≤ (a : ℤ) ∧ (a : ℤ) ≤ y * (Nx : ℤ) + x1)) :
    writeRowSpan Nx C value y x0 x1 cpu a = cpu a := by
  unfold writeRowSpan
  refine foldl_cupdate_skip (List.range (x1 - x0 + 1).toNat) cpu
    (fun i => 0 ≤ y * (Nx : ℤ) + (x0 + (i : ℤ)) ∧
      y * (Nx : ℤ) + (x0 + (i : ℤ)) < (C : ℤ))
    (fun i => (y * (Nx : ℤ) + (x0 + (i : ℤ))).toNat) value a ?_
  intro i hi hP hA
  rw [List.mem_range] at hi
  simp only [] at hP hA
  apply hncov
  constructor <;> omega

lemma writeRowSpan_high (Nx C : ℕ) (value : ℕ) (y x0 x1 : ℤ)
    (cpu : ℕ → ℕ) (a : ℕ) (ha : C ≤ a) :
    writeRowSpan Nx C value y x0 x1 cpu a = cpu a := by
  unfold writeRowSpan
  refine foldl_cupdate_skip (List.range (x1 - x0 + 1).toNat) cpu
    (fun i => 0 ≤ y * (Nx : ℤ) + (x0 + (i : ℤ)) ∧
      y * (Nx : ℤ) + (x0 + (i : ℤ)) < (C : ℤ))
    (fun i => (y * (Nx : ℤ) + (x0 + (i : ℤ))).toNat) value a ?_
  intro i hi hP hA
  simp only [] at hP hA
  omega

lemma writeRowSpan_or (Nx C : ℕ) (value : ℕ) (y x0 x1 : ℤ)
    (cpu : ℕ → ℕ) (a : ℕ) :
    writeRowSpan Nx C value y x0 x1 cpu a = value ∨
    writeRowSpan Nx C value y x0 x1 cpu a = cpu a := by
  unfold writeRowSpan
  exact foldl_cupdate_or (List.range (x1 - x0 + 1).toNat) cpu
    (fun i => 0 ≤ y * (Nx : ℤ) + (x0 + (i : ℤ)) ∧
      y * (Nx : ℤ) + (x0 + (i : ℤ)) < (C : ℤ))
    (fun i => (y * (Nx : ℤ) + (x0 + (i : ℤ))).toNat) value a

lemma copySpan_valid (Nx C : ℕ) (y x0 x1 : ℤ) (cpu dev : ℕ → ℕ)
    (h : 0 ≤ y * (Nx : ℤ) + x0 ∧ 0 ≤ x1 - x0 + 1 ∧
      y * (Nx : ℤ) + x0 + (x1 - x0 + 1) ≤ (C : ℤ)) :
    copySpan Nx C y x0 x1 cpu dev =
      some (fun a : ℕ =>
        if y * (Nx : ℤ) + x0 ≤ (a : ℤ) ∧
            (a : ℤ) < y * (Nx : ℤ) + x0 + (x1 - x0 + 1) then cpu a
        else dev a) := by
  unfold copySpan
  rw [if_pos h]

lemma copySpan_invalid (Nx C : ℕ) (y x0 x1 : ℤ) (cpu dev : ℕ → ℕ)
    (h : ¬ (0 ≤ y * (Nx : ℤ) + x0 ∧ 0 ≤ x1 - x0 + 1 ∧
      y * (Nx : ℤ) + x0 + (x1 - x0 + 1) ≤ (C : ℤ))) :
    copySpan Nx C y x0 x1 cpu dev = none := by
  unfold copySpan
  rw [if_neg h]

lemma mergeStep_bounds (Nx Ny : ℕ) (acc : List (ℤ × ℤ × ℤ)) (r : ℤ × ℤ × ℤ)
    (hacc : ∀ e ∈ acc, 0 ≤ e.1 ∧ e.1 < (Ny : ℤ) ∧ 0 ≤ e.2.1 ∧
      e.2.1 ≤ e.2.2 ∧ e.2.2 < (Nx : ℤ))
    (hr : 0 ≤ r.1 ∧ r.1 < (Ny : ℤ) ∧ 0 ≤ r.2.1 ∧ r.2.1 ≤ r.2.2 ∧ r.2.2 < (Nx : ℤ)) :
    ∀ e ∈ mergeStep acc r, 0 ≤ e.1 ∧ e.1 < (Ny : ℤ) ∧ 0 ≤ e.2.1 ∧
      e.2.1 ≤ e.2.2 ∧ e.2.2 < (Nx : ℤ) := by
  intro e he
  unfold mergeStep at he
  rcases hfind : acc.find? (fun e2 => e2.1 == r.1) with _ | e0 <;>
    rw [hfind] at he
  · rcases List.mem_append.1 he with h | h
    · exact hacc e h
    · rw [List.mem_singleton] at h
      subst h
      refine ⟨hr.1, hr.2.1, ?_, ?_, ?_⟩ <;> simp only [] <;> omega
  · obtain ⟨e1, he1, hfe⟩ := List.mem_map.1 he
    have hb1 := hacc e1 he1
    by_cases hkey : e1.1 = r.1
    · rw [if_pos hkey] at hfe
      subst hfe
      refine ⟨by simp only []; omega, by simp only []; omega, ?_, ?_, ?_⟩ <;>
        simp only [] <;> omega
    · rw [if_neg hkey] at hfe
      subst hfe
      exact hb1

lemma mergeRows_fold_bounds (Nx Ny : ℕ) (rows : List (ℤ × ℤ × ℤ)) :
    ∀ acc : List (ℤ × ℤ × ℤ),
    (∀ e ∈ acc, 0 ≤ e.1 ∧ e.1 < (Ny : ℤ) ∧ 0 ≤ e.2.1 ∧
      e.2.1 ≤ e.2.2 ∧ e.2.2 < (Nx : ℤ)) →
    (∀ r ∈ rows, 0 ≤ r.1 ∧ r.1 < (Ny : ℤ) ∧ 0 ≤ r.2.1 ∧
      r.2.1 ≤ r.2.2 ∧ r.2.2 < (Nx : ℤ)) →
    ∀ e ∈ rows.foldl mergeStep acc, 0 ≤ e.1 ∧ e.1 < (Ny : ℤ) ∧ 0 ≤ e.2.1 ∧
      e.2.1 ≤ e.2.2 ∧ e.2.2 < (Nx : ℤ) := by
  induction rows with
  | nil => intro acc hacc _ e he; exact hacc e he
  | cons r rows ih =>
    intro acc hacc hrows e he
    simp only [List.foldl_cons] at he
    exact ih (mergeStep acc r)
      (mergeStep_bounds Nx Ny acc r hacc (hrows r (List.mem_cons_self r rows)))
      (fun r2 h2 => hrows r2 (List.mem_cons_of_mem r h2)) e he

lemma mergeStep_grow (acc : List (ℤ × ℤ × ℤ)) (r : ℤ × ℤ × ℤ) :
    ∀ e ∈ acc, ∃ e2 ∈ mergeStep acc r,
      e2.1 = e.1 ∧ e2.2.1 ≤ e.2.1 ∧ e.2.2 ≤ e2.2.2 := by
  intro e he
  unfold mergeStep
  rcases hfind : acc.find? (fun e2 => e2.1 == r.1) with _ | e0 <;> rw [hfind]
  · exact ⟨e, List.mem_append.2 (Or.inl he), rfl, le_refl _, le_refl _⟩
  · by_cases hkey : e.1 = r.1
    · refine ⟨(e.1, min e.2.1 r.2.1, max e.2.2 r.2.2), ?_, rfl, ?_, ?_⟩
      · refine List.mem_map.2 ⟨e, he, ?_⟩
        rw [if_pos hkey]
      · exact min_le_left _ _
      · exact le_max_left _ _
    · refine ⟨e, ?_, rfl, le_refl _, le_refl _⟩
      refine List.mem_map.2 ⟨e, he, ?_⟩
      rw [if_neg hkey]

lemma mergeRows_fold_grow (rows : List (ℤ × ℤ × ℤ)) :
    ∀ acc : List (ℤ × ℤ × ℤ), ∀ e ∈ acc,
      ∃ e2 ∈ rows.foldl mergeStep acc,
        e2.1 = e.1 ∧ e2.2.1 ≤ e.2.1 ∧ e.2.2 ≤ e2.2.2 := by
  induction rows with
  | nil => intro acc e he; exact ⟨e, he, rfl, le_refl _, le_refl _⟩
  | cons r rows ih =>
    intro acc e he
    simp only [List.foldl_cons]
    obtain ⟨e1, he1, hk1, hl1, hr1⟩ := mergeStep_grow acc r e he
    obtain ⟨e2, he2, hk2, hl2, hr2⟩ := ih (mergeStep acc r) e1 he1
    exact ⟨e2, he2, hk2.trans hk1, hl2.trans hl1, hr1.trans hr2⟩

lemma mergeRows_fold_covers (rows : List (ℤ × ℤ × ℤ)) :
    ∀ acc : List (ℤ × ℤ × ℤ), ∀ r ∈ rows,
      ∃ e ∈ rows.foldl mergeStep acc,
        e.1 = r.1 ∧ e.2.1 ≤ r.2.1 ∧ r.2.2 ≤ e.2.2 := by
  induction rows with
  | nil => intro acc r hr; exact absurd hr (List.not_mem_nil r)
  | cons r0 rows ih =>
    intro acc r hr
    simp only [List.foldl_cons]
    rcases List.mem_cons.1 hr with hh | hh
    · subst hh
      have hcov : ∃ e1 ∈ mergeStep acc r,
          e1.1 = r.1 ∧ e1.2.1 ≤ r.2.1 ∧ r.2.2 ≤ e1.2.2 := by
        unfold mergeStep
        rcases hfind : acc.find? (fun e2 => e2.1 == r.1) with _ | e0 <;> rw [hfind]
        · refine ⟨(r.1, min r.2.1 r.2.2, max r.2.1 r.2.2),
            List.mem_append.2 (Or.inr (List.mem_singleton.2 rfl)), rfl, ?_, ?_⟩
          · exact min_le_left _ _
          · exact le_max_right _ _
        · have he0 : e0 ∈ acc := List.mem_of_find?_eq_some hfind
          have hkey : e0.1 = r.1 := by
            have := List.find?_some hfind
            simpa using this
          refine ⟨(e0.1, min e0.2.1 r.2.1, max e0.2.2 r.2.2), ?_, hkey, ?_, ?_⟩
          · refine List.mem_map.2 ⟨e0, he0, ?_⟩
            rw [if_pos hkey]
          · exact min_le_right _ _
          · exact le_max_right _ _
      obtain ⟨e1, he1, hk1, hl1, hr1⟩ := hcov
      obtain ⟨e2, he2, hk2, hl2, hr2⟩ := mergeRows_fold_grow rows (mergeStep acc r) e1 he1
      exact ⟨e2, he2, hk2.trans hk1, hl2.trans hl1, hr1.trans hr2⟩
    · exact ih (mergeStep acc r0) r hh

lemma apply_fold_error (Nx C : ℕ) (value : ℕ) (l : List (ℤ × ℤ × ℤ))
    (st : (ℕ → ℕ) × (ℕ → ℕ)) :
    l.foldl
      (fun acc e =>
        match acc with
        | Except.ok st2 => applySpanStep Nx C value st2 e
        | Except.error st2 => Except.error st2)
      (Except.error st) = Except.error st := by
  induction l with
  | nil => rfl
  | cons e l ih =>
    simp only [List.foldl_cons]
    exact ih

lemma apply_fold_ok (Nx Ny : ℕ) (value : ℕ) (l : List (ℤ × ℤ × ℤ))
    (hinv : ∀ e ∈ l, 0 ≤ e.1 ∧ e.1 < (Ny : ℤ) ∧ 0 ≤ e.2.1 ∧
      e.2.1 ≤ e.2.2 ∧ e.2.2 < (Nx : ℤ)) :
    ∀ cpu dev : ℕ → ℕ,
    ∃ st : (ℕ → ℕ) × (ℕ → ℕ),
      l.foldl
        (fun acc e =>
          match acc with
          | Except.ok st2 => applySpanStep Nx (Nx * Ny) value st2 e
          | Except.error st2 => Except.error st2)
        (Except.ok (cpu, dev)) = Except.ok st ∧
      ∀ a, a < Nx * Ny →
        ((∃ e ∈ l, e.1 * (Nx : ℤ) + e.2.1 ≤ (a : ℤ) ∧
            (a : ℤ) ≤ e.1 * (Nx : ℤ) + e.2.2) →
          st.1 a = value ∧ st.2 a = value) ∧
        ((¬ ∃ e ∈ l, e.1 * (Nx : ℤ) + e.2.1 ≤ (a : ℤ) ∧
            (a : ℤ) ≤ e.1 * (Nx : ℤ) + e.2.2) →
          st.1 a = cpu a ∧ st.2 a = dev a) := by
  induction l with
  | nil =>
    intro cpu dev
    exact ⟨(cpu, dev), rfl,
      fun a _ => ⟨fun h => absurd h (by simp), fun _ => ⟨rfl, rfl⟩⟩⟩
  | cons e l ih =>
    intro cpu dev
    have hbe := hinv e (List.mem_cons_self e l)
    have hNx0 : (0 : ℤ) ≤ (Nx : ℤ) := Int.natCast_nonneg Nx
    have hcast : ((Nx * Ny : ℕ) : ℤ) = (Nx : ℤ) * (Ny : ℤ) := by push_cast; ring
    have h3 : e.1 * (Nx : ℤ) ≤ ((Ny : ℤ) - 1) * (Nx : ℤ) :=
      mul_le_mul_of_nonneg_right (by omega) hNx0
    have h4 : ((Ny : ℤ) - 1) * (Nx : ℤ) = (Ny : ℤ) * (Nx : ℤ) - (Nx : ℤ) := by ring
    have h5 : (Nx : ℤ) * (Ny : ℤ) = (Ny : ℤ) * (Nx : ℤ) := by ring
    have hstart : 0 ≤ e.1 * (Nx : ℤ) + e.2.1 :=
      add_nonneg (mul_nonneg hbe.1 hNx0) hbe.2.2.1
    have hend : e.1 * (Nx : ℤ) + e.2.2 < ((Nx * Ny : ℕ) : ℤ) := by
      rw [hcast, h5]
      linarith [hbe.2.2.2.2, h3, h4]
    have hdev2 := copySpan_valid Nx (Nx * Ny) e.1 e.2.1 e.2.2
      (writeRowSpan Nx (Nx * Ny) value e.1 e.2.1 e.2.2 cpu) dev
      ⟨hstart, by linarith [hbe.2.2.2.1], by linarith⟩
    simp only [List.foldl_cons]
    have hhead : applySpanStep Nx (Nx * Ny) value (cpu, dev) e =
        Except.ok (writeRowSpan Nx (Nx * Ny) value e.1 e.2.1 e.2.2 cpu,
          fun a : ℕ =>
            if e.1 * (Nx : ℤ) + e.2.1 ≤ (a : ℤ) ∧
                (a : ℤ) < e.1 * (Nx : ℤ) + e.2.1 + (e.2.2 - e.2.1 + 1) then
              writeRowSpan Nx (Nx * Ny) value e.1 e.2.1 e.2.2 cpu a
            else dev a) := by
      unfold applySpanStep
      rw [hdev2]
    rw [hhead]
    obtain ⟨st, hfold, hchar⟩ := ih (fun e2 h2 => hinv e2 (List.mem_cons_of_mem e h2))
      (writeRowSpan Nx (Nx * Ny) value e.1 e.2.1 e.2.2 cpu)
      (fun a : ℕ =>
        if e.1 * (Nx : ℤ) + e.2.1 ≤ (a : ℤ) ∧
            (a : ℤ) < e.1 * (Nx : ℤ) + e.2.1 + (e.2.2 - e.2.1 + 1) then
          writeRowSpan Nx (Nx * Ny) value e.1 e.2.1 e.2.2 cpu a
        else dev a)
    refine ⟨st, hfold, ?_⟩
    intro a ha
    have hih := hchar a ha
    by_cases hcov : e.1 * (Nx : ℤ) + e.2.1 ≤ (a : ℤ) ∧
        (a : ℤ) ≤ e.1 * (Nx : ℤ) + e.2.2
    · -- the head span covers `a`: both buffers hold `value` from here on
      have hc2 : writeRowSpan Nx (Nx * Ny) value e.1 e.2.1 e.2.2 cpu a = value :=
        writeRowSpan_covered _ _ _ _ _ _ _ _ hcov ⟨hstart, hend⟩
      have hd2 : (if e.1 * (Nx : ℤ) + e.2.1 ≤ (a : ℤ) ∧
              (a : ℤ) < e.1 * (Nx : ℤ) + e.2.1 + (e.2.2 - e.2.1 + 1) then
            writeRowSpan Nx (Nx * Ny) value e.1 e.2.1 e.2.2 cpu a
          else dev a) = value := by
        rw [if_pos (by constructor <;> linarith [hcov.1, hcov.2]), hc2]
      constructor
      · intro _
        by_cases hl : ∃ e2 ∈ l, e2.1 * (Nx : ℤ) + e2.2.1 ≤ (a : ℤ) ∧
            (a : ℤ) ≤ e2.1 * (Nx : ℤ) + e2.2.2
        · exact hih.1 hl
        · obtain ⟨g1, g2⟩ := hih.2 hl
          exact ⟨g1.trans hc2, g2.trans hd2⟩
      · intro hnone
        exact absurd ⟨e, List.mem_cons_self e l, hcov⟩ hnone
    · -- the head span does not cover `a`: it leaves both buffers unchanged
      have hc2 : writeRowSpan Nx (Nx * Ny) value e.1 e.2.1 e.2.2 cpu a = cpu a :=
        writeRowSpan_not_covered _ _ _ _ _ _ _ _ hcov
      have hd2 : (if e.1 * (Nx : ℤ) + e.2.1 ≤ (a : ℤ) ∧
              (a : ℤ) < e.1 * (Nx : ℤ) + e.2.1 + (e.2.2 - e.2.1 + 1) then
            writeRowSpan Nx (Nx * Ny) value e.1 e.2.1 e.2.2 cpu a
          else dev a) = dev a := by
        rw [if_neg (by intro hcc; exact hcov ⟨hcc.1, by linarith [hcc.2]⟩)]
      constructor
      · intro hex
        obtain ⟨e2, he2, hcov2⟩ := hex
        rcases List.mem_cons.1 he2 with hh | hh
        · exact absurd (hh ▸ hcov2) hcov
        · exact hih.1 ⟨e2, hh, hcov2⟩
      · intro hnone
        have hl : ¬ ∃ e2 ∈ l, e2.1 * (Nx : ℤ) + e2.2.1 ≤ (a : ℤ) ∧
            (a : ℤ) ≤ e2.1 * (Nx : ℤ) + e2.2.2 :=
          fun ⟨e2, he2, hc⟩ => hnone ⟨e2, List.mem_cons_of_mem e he2, hc⟩
        obtain ⟨g1, g2⟩ := hih.2 hl
        exact ⟨g1.trans hc2, g2.trans hd2⟩

/-- Counterexample to C8 as stated: two *disjoint* intervals on the same
row, `x ∈ [0,1]` and `x ∈ [5,7]` of row 0 on an 8×1 grid, are merged into
one bounding span; cell 3 — covered by neither submitted interval — is also
set in both the mirror and the device buffer, so cells not covered by any
submitted interval do not keep their previous value. -/
theorem applyMaskRows_merge_cex :
    (maskEditState (applyMaskRows 8 8
      [((0 : ℤ), (0 : ℤ), (1 : ℤ)), ((0 : ℤ), (5 : ℤ), (7 : ℤ))]
      1 (fun _ => 0) (fun _ => 0))).1 3 = 1 ∧
    (maskEditState (applyMaskRows 8 8
      [((0 : ℤ), (0 : ℤ), (1 : ℤ)), ((0 : ℤ), (5 : ℤ), (7 : ℤ))]
      1 (fun _ => 0) (fun _ => 0))).2 3 = 1 ∧
    ¬ ((0 : ℤ) ≤ 3 ∧ (3 : ℤ) ≤ 1) ∧ ¬ ((5 : ℤ) ≤ 3 ∧ (3 : ℤ) ≤ 7) := by
  refine ⟨by decide, by decide, by decide, by decide⟩

/-- C8 (amended): all intervals submitted for the same row — overlapping or
not — are merged into a single bounding span (first conjunct: the merged
entry of a row covers every submitted interval of that row).  On in-bounds
edits the call returns normally, and exactly the cells covered by some
merged row span are set to `value` in both the host-side mask mirror and
the device mask buffer, while every cell not covered by any merged span
keeps its previous value in both (second conjunct). -/
theorem applyMaskRows_frame (Nx Ny : ℕ) (rows : List (ℤ × ℤ × ℤ))
    (value : ℕ) (cpu dev : ℕ → ℕ)
    (hb : ∀ r ∈ rows, 0 ≤ r.1 ∧ r.1 < (Ny : ℤ) ∧ 0 ≤ r.2.1 ∧
      r.2.1 ≤ r.2.2 ∧ r.2.2 < (Nx : ℤ)) :
    (∀ r ∈ rows, ∃ e ∈ mergeRows rows,
      e.1 = r.1 ∧ e.2.1 ≤ r.2.1 ∧ r.2.2 ≤ e.2.2) ∧
    ∃ st : (ℕ → ℕ) × (ℕ → ℕ),
      applyMaskRows Nx (Nx * Ny) rows value cpu dev = Except.ok st ∧
      ∀ a, a < Nx * Ny →
        ((∃ e ∈ mergeRows rows, e.1 * (Nx : ℤ) + e.2.1 ≤ (a : ℤ) ∧
            (a : ℤ) ≤ e.1 * (Nx : ℤ) + e.2.2) →
          st.1 a = value ∧ st.2 a = value) ∧
        ((¬ ∃ e ∈ mergeRows rows, e.1 * (Nx : ℤ) + e.2.1 ≤ (a : ℤ) ∧
            (a : ℤ) ≤ e.1 * (Nx : ℤ) + e.2.2) →
          st.1 a = cpu a ∧ st.2 a = dev a) := by
  constructor
  · exact fun r hr => mergeRows_fold_covers rows [] r hr
  · unfold applyMaskRows
    by_cases hrows : rows = []
    · subst hrows
      rw [if_pos rfl]
      refine ⟨(cpu, dev), rfl,
        fun a _ => ⟨fun h => absurd h ?_, fun _ => ⟨rfl, rfl⟩⟩⟩
      simp [mergeRows]
    · rw [if_neg hrows]
      exact apply_fold_ok Nx Ny value (mergeRows rows)
        (mergeRows_fold_bounds Nx Ny rows [] (by intro e he; cases he) hb)
        cpu dev

/-- Witness for C8 on a 2×1 grid: the single interval `[0, 0]` of row 0 is
in bounds, the call returns normally with the frame characterization, and
cell 0 of the resulting mirror concretely holds 5. -/
theorem applyMaskRows_frame_witness :
    (∀ r ∈ [((0 : ℤ), (0 : ℤ), (0 : ℤ))], 0 ≤ r.1 ∧ r.1 < ((1 : ℕ) : ℤ) ∧
      0 ≤ r.2.1 ∧ r.2.1 ≤ r.2.2 ∧ r.2.2 < ((2 : ℕ) : ℤ)) ∧
    (∃ st : (ℕ → ℕ) × (ℕ → ℕ),
      applyMaskRows 2 (2 * 1) [((0 : ℤ), (0 : ℤ), (0 : ℤ))] 5
        (fun _ => 0) (fun _ => 0) = Except.ok st ∧
      ∀ a : ℕ, a < 2 * 1 →
        ((∃ e ∈ mergeRows [((0 : ℤ), (0 : ℤ), (0 : ℤ))],
            e.1 * ((2 : ℕ) : ℤ) + e.2.1 ≤ (a : ℤ) ∧
            (a : ℤ) ≤ e.1 * ((2 : ℕ) : ℤ) + e.2.2) →
          st.1 a = 5 ∧ st.2 a = 5) ∧
        ((¬ ∃ e ∈ mergeRows [((0 : ℤ), (0 : ℤ), (0 : ℤ))],
            e.1 * ((2 : ℕ) : ℤ) + e.2.1 ≤ (a : ℤ) ∧
            (a : ℤ) ≤ e.1 * ((2 : ℕ) : ℤ) + e.2.2) →
          st.1 a = (fun _ => 0 : ℕ → ℕ) a ∧ st.2 a = (fun _ => 0 : ℕ → ℕ) a)) ∧
    (maskEditState (applyMaskRows 2 (2 * 1) [((0 : ℤ), (0 : ℤ), (0 : ℤ))] 5
      (fun _ => 0) (fun _ => 0))).1 0 = 5 :=
  ⟨by decide,
   (applyMaskRows_frame 2 1 [((0 : ℤ), (0 : ℤ), (0 : ℤ))] 5
      (fun _ => 0) (fun _ => 0) (by decide)).2,
   by decide⟩

/-- Counterexample to C9 as stated.  First: the out-of-bounds interval
`x ∈ [3, 5]` of row 0 on a 4×2 grid is *not* clamped — the mirror write
spills across the row boundary through the raw linear index and sets cell
4 = (0, 1) of the next row, whereas the clamped behavior described by the
spec would leave cell 4 untouched.  Second: the call is not never-fatal —
the same interval on the bottom row 1 makes `writeBuffer` address the
element range `[7, 10)` of the 8-element buffers, which overruns the source
`ArrayBuffer` and throws synchronously. -/
theorem applyMaskRows_no_clamping_cex :
    (maskEditState (applyMaskRows 4 8 [((0 : ℤ), (3 : ℤ), (5 : ℤ))] 1
      (fun _ => 0) (fun _ => 0))).1 4 = 1 ∧
    applyMaskRows_clamped_spec 4 2 [((0 : ℤ), (3 : ℤ), (5 : ℤ))] 1
      (fun _ => 0) 4 = 0 ∧
    maskEditThrew (applyMaskRows 4 8 [((1 : ℤ), (3 : ℤ), (5 : ℤ))] 1
      (fun _ => 0) (fun _ => 0)) = true := by
  refine ⟨by decide, by decide, by decide⟩

/-- C9 (amended): out-of-bounds mask edits are not clamped and the call is
not never-fatal.  The mirror update addresses the raw linear index
`y·Nx + x` and a mirror write is dropped exactly when that index falls
outside `[0, C)` (typed-array semantics), so an edit can spill into
neighboring rows while the mirror is never written outside `[0, C)` (first
conjunct) and each mirror cell is either set to `value` or left unchanged
(second conjunct) — this holds whether or not the call throws, since the
mutations made before a thrown `writeBuffer` exception persist.  The call
throws only for a merged span whose `writeBuffer` element range does not
fit inside `[0, C]` (TypeError at the `[EnforceRange]` conversion for a
negative offset or size, OperationError when the range overruns the source
buffer), aborting the remaining rows; if every merged span's range fits,
the call returns normally (third conjunct). -/
theorem applyMaskRows_oob_behavior (Nx C : ℕ) (rows : List (ℤ × ℤ × ℤ))
    (value : ℕ) (cpu dev : ℕ → ℕ) :
    (∀ a, C ≤ a →
      (maskEditState (applyMaskRows Nx C rows value cpu dev)).1 a = cpu a) ∧
    (∀ a, (maskEditState (applyMaskRows Nx C rows value cpu dev)).1 a = value ∨
      (maskEditState (applyMaskRows Nx C rows value cpu dev)).1 a = cpu a) ∧
    ((∀ e ∈ mergeRows rows,
        0 ≤ e.1 * (Nx : ℤ) + e.2.1 ∧ 0 ≤ e.2.2 - e.2.1 + 1 ∧
        e.1 * (Nx : ℤ) + e.2.1 + (e.2.2 - e.2.1 + 1) ≤ (C : ℤ)) →
      maskEditThrew (applyMaskRows Nx C rows value cpu dev) = false) := by
  have key : ∀ (l : List (ℤ × ℤ × ℤ)) (cpu2 dev2 : ℕ → ℕ),
      (∀ a, C ≤ a →
        (maskEditState (l.foldl
          (fun acc e =>
            match acc with
            | Except.ok st2 => applySpanStep Nx C value st2 e
            | Except.error st2 => Except.error st2)
          (Except.ok (cpu2, dev2)))).1 a = cpu2 a) ∧
      (∀ a, (maskEditState (l.foldl
          (fun acc e =>
            match acc with
            | Except.ok st2 => applySpanStep Nx C value st2 e
            | Except.error st2 => Except.error st2)
          (Except.ok (cpu2, dev2)))).1 a = value ∨
        (maskEditState (l.foldl
          (fun acc e =>
            match acc with
            | Except.ok st2 => applySpanStep Nx C value st2 e
            | Except.error st2 => Except.error st2)
          (Except.ok (cpu2, dev2)))).1 a = cpu2 a) ∧
      ((∀ e ∈ l,
          0 ≤ e.1 * (Nx : ℤ) + e.2.1 ∧ 0 ≤ e.2.2 - e.2.1 + 1 ∧
          e.1 * (Nx : ℤ) + e.2.1 + (e.2.2 - e.2.1 + 1) ≤ (C : ℤ)) →
        maskEditThrew (l.foldl
          (fun acc e =>
            match acc with
            | Except.ok st2 => applySpanStep Nx C value st2 e
            | Except.error st2 => Except.error st2)
          (Except.ok (cpu2, dev2))) = false) := by
    intro l
    induction l with
    | nil => intro cpu2 dev2; exact ⟨fun _ _ => rfl, fun _ => Or.inr rfl, fun _ => rfl⟩
    | cons e l ih =>
      intro cpu2 dev2
      simp only [List.foldl_cons]
      rcases hc : copySpan Nx C e.1 e.2.1 e.2.2
          (writeRowSpan Nx C value e.1 e.2.1 e.2.2 cpu2) dev2 with _ | devf
      · -- `writeBuffer` throws here: the remaining spans are aborted
        have hhead : applySpanStep Nx C value (cpu2, dev2) e =
            Except.error (writeRowSpan Nx C value e.1 e.2.1 e.2.2 cpu2, dev2) := by
          unfold applySpanStep
          rw [hc]
        rw [hhead, apply_fold_error]
        refine ⟨?_, ?_, ?_⟩
        · intro a ha
          exact writeRowSpan_high Nx C value e.1 e.2.1 e.2.2 cpu2 a ha
        · intro a
          exact writeRowSpan_or Nx C value e.1 e.2.1 e.2.2 cpu2 a
        · intro hvalid
          exfalso
          have hsome := copySpan_valid Nx C e.1 e.2.1 e.2.2
            (writeRowSpan Nx C value e.1 e.2.1 e.2.2 cpu2) dev2
            (hvalid e (List.mem_cons_self e l))
          rw [hc] at hsome
          exact Option.noConfusion hsome
      · have hhead : applySpanStep Nx C value (cpu2, dev2) e =
            Except.ok (writeRowSpan Nx C value e.1 e.2.1 e.2.2 cpu2, devf) := by
          unfold applySpanStep
          rw [hc]
        rw [hhead]
        obtain ⟨k1, k2, k3⟩ := ih (writeRowSpan Nx C value e.1 e.2.1 e.2.2 cpu2) devf
        refine ⟨?_, ?_, ?_⟩
        · intro a ha
          rw [k1 a ha]
          exact writeRowSpan_high Nx C value e.1 e.2.1 e.2.2 cpu2 a ha
        · intro a
          rcases k2 a with h | h
          · exact Or.inl h
          · rw [h]
            exact writeRowSpan_or Nx C value e.1 e.2.1 e.2.2 cpu2 a
        · intro hvalid
          exact k3 (fun e2 h2 => hvalid e2 (List.mem_cons_of_mem e h2))
  unfold applyMaskRows
  by_cases hrows : rows = []
  · subst hrows
    rw [if_pos rfl]
    exact ⟨fun _ _ => rfl, fun _ => Or.inr rfl, fun _ => rfl⟩
  · rw [if_neg hrows]
    exact key (mergeRows rows) cpu dev

/-- Witness for C9 on a 4×2 grid (mirror size 8): the spilled edit leaves
index 9 (outside the mirror) unchanged, index 4 holds the new value or its
old value, and the in-bounds merged span makes the call return normally. -/
theorem applyMaskRows_oob_behavior_witness :
    (8 : ℕ) ≤ 9 ∧
    (maskEditState (applyMaskRows 4 8 [((0 : ℤ), (3 : ℤ), (5 : ℤ))] 1
      (fun _ => 0) (fun _ => 0))).1 9 = (fun _ => 0 : ℕ → ℕ) 9 ∧
    ((maskEditState (applyMaskRows 4 8 [((0 : ℤ), (3 : ℤ), (5 : ℤ))] 1
      (fun _ => 0) (fun _ => 0))).1 4 = 1 ∨
     (maskEditState (applyMaskRows 4 8 [((0 : ℤ), (3 : ℤ), (5 : ℤ))] 1
      (fun _ => 0) (fun _ => 0))).1 4 = (fun _ => 0 : ℕ → ℕ) 4) ∧
    maskEditThrew (applyMaskRows 4 8 [((0 : ℤ), (3 : ℤ), (5 : ℤ))] 1
      (fun _ => 0) (fun _ => 0)) = false :=
  ⟨by omega,
   (applyMaskRows_oob_behavior 4 8 [((0 : ℤ), (3 : ℤ), (5 : ℤ))] 1
      (fun _ => 0) (fun _ => 0)).1 9 (by omega),
   (applyMaskRows_oob_behavior 4 8 [((0 : ℤ), (3 : ℤ), (5 : ℤ))] 1
      (fun _ => 0) (fun _ => 0)).2.1 4,
   (applyMaskRows_oob_behavior 4 8 [((0 : ℤ), (3 : ℤ), (5 : ℤ))] 1
      (fun _ => 0) (fun _ => 0)).2.2 (by decide)⟩

end WebLBM
